import Mathlib

set_option maxRecDepth 8000

/-!
Verification development for the question-extraction pipeline of
`process_questions.py`.

Python functions are embedded as executable Lean definitions over
`List Char` and `String`.  The external generative-model capability
(`call_gemini_api` seen from its callers) is an oracle parameter
`Nat → Option String`; a call counter in the threaded state counts its
invocations.  The internals of `call_gemini_api` itself are modelled
separately with a per-attempt response oracle.  File-system writes of the
batch runner are modelled as an event trace.
-/

/-! ## Python string primitives -/

/-- Whitespace test used by Python `str.strip()` (ASCII whitespace;
the embedding restricts to the ASCII subset). -/
def isPyWs (c : Char) : Bool :=
  c = ' ' || c = '\t' || c = '\n' || c = '\r' || c = '\x0b' || c = '\x0c'

/-- Python `str.strip()` on a character list. -/
def pyStripL (l : List Char) : List Char :=
  ((l.dropWhile isPyWs).reverse.dropWhile isPyWs).reverse

/-- Python `str.strip()` on a string. -/
def pyStrip (s : String) : String := ⟨pyStripL s.data⟩

/-- Python `str.strip(ch)`: remove every leading and trailing occurrence
of the single character `ch`. -/
def pyStripChar (ch : Char) (l : List Char) : List Char :=
  ((l.dropWhile (· = ch)).reverse.dropWhile (· = ch)).reverse

/-- Python `str.lower()` (ASCII case mapping). -/
def pyLower (l : List Char) : List Char := l.map Char.toLower

/-- Python substring test `pat in hay`. -/
def containsSub (pat : List Char) : List Char → Bool
  | [] => pat.isEmpty
  | c :: rest => pat.isPrefixOf (c :: rest) || containsSub pat rest

/-- Python `str.replace(pat, rep)`: left-to-right, non-overlapping; fuel
recursion (one unit per consumed character, so `l.length` always
suffices).  An empty pattern leaves the input unchanged (the source never
uses one). -/
def replaceAllAux (pat rep : List Char) : Nat → List Char → List Char
  | _, [] => []
  | 0, l => l
  | fuel + 1, c :: rest =>
    if pat ≠ [] ∧ pat.isPrefixOf (c :: rest) then
      rep ++ replaceAllAux pat rep fuel (List.drop (pat.length - 1) rest)
    else
      c :: replaceAllAux pat rep fuel rest

def replaceAll (pat rep l : List Char) : List Char := replaceAllAux pat rep l.length l

/-- Python `str.split(sep)` for a non-empty separator, accumulator and
fuel form. -/
def splitOnLAux (sep : List Char) : Nat → List Char → List Char → List (List Char)
  | _, [], acc => [acc.reverse]
  | 0, l, acc => [acc.reverse ++ l]
  | fuel + 1, c :: rest, acc =>
    if sep ≠ [] ∧ sep.isPrefixOf (c :: rest) then
      acc.reverse :: splitOnLAux sep fuel (List.drop (sep.length - 1) rest) []
    else
      splitOnLAux sep fuel rest (c :: acc)

/-- Python `str.split(sep)` on character lists. -/
def splitOnL (sep l : List Char) : List (List Char) := splitOnLAux sep l.length l []

/-! ## JSON values and a model of `json.loads` -/

/-- JSON values as produced by Python `json.loads`.  Numeric literals keep
their source token (the embedding does not model floating-point
re-formatting). -/
inductive Json where
  | str : String → Json
  | num : String → Json
  | bool : Bool → Json
  | null : Json
  | arr : List Json → Json
  | obj : List (String × Json) → Json
deriving Repr

/-- JSON whitespace accepted between tokens by `json.loads`. -/
def isJsonWs (c : Char) : Bool :=
  c = ' ' || c = '\t' || c = '\n' || c = '\r'

def skipWs (l : List Char) : List Char := l.dropWhile isJsonWs

/-- The single-character JSON escapes accepted after a backslash
(`\u` is handled separately). -/
def escChar (c : Char) : Option Char :=
  if c = '"' then some '"'
  else if c = '\\' then some '\\'
  else if c = '/' then some '/'
  else if c = 'b' then some '\x08'
  else if c = 'f' then some '\x0c'
  else if c = 'n' then some '\n'
  else if c = 'r' then some '\r'
  else if c = 't' then some '\t'
  else none

def hexVal (c : Char) : Option Nat :=
  if '0' ≤ c ∧ c ≤ '9' then some (c.toNat - '0'.toNat)
  else if 'a' ≤ c ∧ c ≤ 'f' then some (c.toNat - 'a'.toNat + 10)
  else if 'A' ≤ c ∧ c ≤ 'F' then some (c.toNat - 'A'.toNat + 10)
  else none

/-- Body of a JSON string literal, after the opening quote: returns the
decoded characters and the remainder after the closing quote.  Raw control
characters and unknown escapes are rejected, as by `json.loads` in strict
mode. -/
def parseStringAux : Nat → List Char → Option (List Char × List Char)
  | 0, _ => none
  | _ + 1, [] => none
  | fuel + 1, c :: rest =>
    if c = '"' then some ([], rest)
    else if c = '\\' then
      match rest with
      | [] => none
      | e :: rest2 =>
        if e = 'u' then
          match rest2 with
          | h1 :: h2 :: h3 :: h4 :: rest3 =>
            match hexVal h1, hexVal h2, hexVal h3, hexVal h4 with
            | some a, some b, some c2, some d =>
              (parseStringAux fuel rest3).map
                (fun p => (Char.ofNat (((a * 16 + b) * 16 + c2) * 16 + d) :: p.1, p.2))
            | _, _, _, _ => none
          | _ => none
        else
          match escChar e with
          | some d => (parseStringAux fuel rest2).map (fun p => (d :: p.1, p.2))
          | none => none
    else if c.toNat < 0x20 then none
    else (parseStringAux fuel rest).map (fun p => (c :: p.1, p.2))

/-- String-literal body parse with ample fuel. -/
def parseString (l : List Char) : Option (List Char × List Char) :=
  parseStringAux l.length l

def isDigit19 (c : Char) : Bool := '1' ≤ c && c ≤ '9'

/-- Characters a JSON number token may be built from. -/
def numTokChar (c : Char) : Bool :=
  c.isDigit || c = '-' || c = '+' || c = '.' || c = 'e' || c = 'E'

/-- Integer part of the JSON number grammar: `0` or `[1-9][0-9]*`. -/
def vnInt : List Char → Option (List Char)
  | [] => none
  | c :: rest =>
    if c = '0' then some rest
    else if isDigit19 c then some (rest.dropWhile Char.isDigit)
    else none

/-- Optional fraction part: `.[0-9]+`. -/
def vnFrac : List Char → Option (List Char)
  | '.' :: rest =>
    match rest with
    | c :: rest2 => if c.isDigit then some (rest2.dropWhile Char.isDigit) else none
    | [] => none
  | l => some l

/-- Optional exponent part: `[eE][+-]?[0-9]+`. -/
def vnExp : List Char → Option (List Char)
  | c :: rest =>
    if c = 'e' || c = 'E' then
      let rest2 := match rest with
                   | s :: r => if s = '+' || s = '-' then r else s :: r
                   | [] => []
      match rest2 with
      | d :: r2 => if d.isDigit then some (r2.dropWhile Char.isDigit) else none
      | [] => none
    else some (c :: rest)
  | [] => some []

/-- Full-token validation against the JSON number grammar
`-?(0|[1-9][0-9]*)(\.[0-9]+)?([eE][+-]?[0-9]+)?`. -/
def validNumTok (l : List Char) : Bool :=
  let l1 := match l with
            | '-' :: rest => rest
            | _ => l
  match vnInt l1 with
  | none => false
  | some l2 =>
    match vnFrac l2 with
    | none => false
    | some l3 =>
      match vnExp l3 with
      | some [] => true
      | _ => false

/-- Literals and numbers (no leading whitespace expected).  Python's
`json.loads` also accepts the non-standard constants `NaN`, `Infinity`
and `-Infinity`. -/
def parseAtom (s : List Char) : Option (Json × List Char) :=
  if ("true".data).isPrefixOf s then some (.bool true, s.drop 4)
  else if ("false".data).isPrefixOf s then some (.bool false, s.drop 5)
  else if ("null".data).isPrefixOf s then some (.null, s.drop 4)
  else if ("NaN".data).isPrefixOf s then some (.num "NaN", s.drop 3)
  else if ("Infinity".data).isPrefixOf s then some (.num "Infinity", s.drop 8)
  else if ("-Infinity".data).isPrefixOf s then some (.num "-Infinity", s.drop 9)
  else
    let tok := s.takeWhile numTokChar
    if tok ≠ [] ∧ validNumTok tok then some (.num ⟨tok⟩, s.drop tok.length)
    else none

/-- Object-member loop of the parser.  `pv` parses one value; `cnt` bounds
the number of remaining `,`-separated members (callers pass an ample
bound, so it never cuts off a parse that `json.loads` would accept). -/
def membersLoop (pv : List Char → Option (Json × List Char)) :
    Nat → List Char → List (String × Json) → Option (Json × List Char)
  | 0, _, _ => none
  | cnt + 1, s, acc =>
    match s with
    | '"' :: rest =>
      match parseString rest with
      | none => none
      | some (kcs, r1) =>
        match skipWs r1 with
        | ':' :: r2 =>
          match pv r2 with
          | none => none
          | some (v, r3) =>
            match skipWs r3 with
            | ',' :: r4 => membersLoop pv cnt (skipWs r4) (acc ++ [(⟨kcs⟩, v)])
            | '}' :: r4 => some (.obj (acc ++ [(⟨kcs⟩, v)]), r4)
            | _ => none
        | _ => none
    | _ => none

/-- Array-element loop of the parser, analogous to `membersLoop`. -/
def elemsLoop (pv : List Char → Option (Json × List Char)) :
    Nat → List Char → List Json → Option (Json × List Char)
  | 0, _, _ => none
  | cnt + 1, s, acc =>
    match pv s with
    | none => none
    | some (v, r1) =>
      match skipWs r1 with
      | ',' :: r2 => elemsLoop pv cnt (skipWs r2) (acc ++ [v])
      | ']' :: r2 => some (.arr (acc ++ [v]), r2)
      | _ => none

/-- One JSON value with leading whitespace, returning the remainder.
`fuel` bounds the container nesting depth; `jsonLoads` passes the input
length plus one, which always suffices. -/
def parseValue : Nat → List Char → Option (Json × List Char)
  | 0, _ => none
  | fuel + 1, s =>
    match skipWs s with
    | '{' :: rest =>
      (match skipWs rest with
       | '}' :: r => some (.obj [], r)
       | t => membersLoop (parseValue fuel) (t.length + 1) t [])
    | '[' :: rest =>
      (match skipWs rest with
       | ']' :: r => some (.arr [], r)
       | t => elemsLoop (parseValue fuel) (t.length + 1) t [])
    | '"' :: rest => (parseString rest).map (fun p => (Json.str ⟨p.1⟩, p.2))
    | t => parseAtom t

/-- Model of Python `json.loads` on a character list: one value, then only
whitespace up to the end of input. -/
def jsonLoadsL (l : List Char) : Option Json :=
  match parseValue (l.length + 1) l with
  | some (j, rest) => if skipWs rest = [] then some j else none
  | none => none

/-! ## `safe_json_parse` -/

/-- The backtick character, written by code point to keep the source free
of stray backticks. -/
def btick : Char := Char.ofNat 96

/-- `sep.join(pieces)` in Python terms: pieces joined by one separator. -/
def joinSep (sep : List Char) : List (List Char) → List Char
  | [] => []
  | [x] => x
  | x :: y :: rest => x ++ sep ++ joinSep sep (y :: rest)

/-- Fenced-code stripping loop of `safe_json_parse`: every line whose
stripped form starts with three backticks toggles the `in_block` flag and
is dropped; all other lines are kept. -/
def fenceFilter : List (List Char) → Bool → List (List Char)
  | [], _ => []
  | line :: rest, inB =>
    if [btick, btick, btick].isPrefixOf (pyStripL line) then
      fenceFilter rest (!inB)
    else if inB || !([btick, btick, btick].isPrefixOf (pyStripL line)) then
      line :: fenceFilter rest inB
    else
      fenceFilter rest inB

/-- `cleaned.split('\n')`, fence filtering, `'\n'.join(...)`, `.strip()`. -/
def stripFencesL (l : List Char) : List Char :=
  pyStripL (joinSep ['\n'] (fenceFilter (splitOnL ['\n'] l) false))

/-- The greedy match of `re.search(r'\{.*\}', cleaned, re.DOTALL)`:
the span from the first `{` to the last `}`, when the latter follows the
former. -/
def braceSpanL (l : List Char) : Option (List Char) :=
  let pre := l.dropWhile (fun c => c ≠ '{')
  let cut := (pre.reverse.dropWhile (fun c => c ≠ '}')).reverse
  if cut = [] then none else some cut

/-- The sentinel Python uses to protect already-escaped backslash pairs. -/
def bsMarker : List Char := (Char.ofNat 0) :: ("DOUBLE_BACKSLASH").data ++ [Char.ofNat 0]

/-- The backslash re-escaping step: protect `\\`, double every remaining
`\`, restore the protected pairs. -/
def reescapeL (l : List Char) : List Char :=
  replaceAll bsMarker ['\\', '\\']
    (replaceAll ['\\'] ['\\', '\\']
      (replaceAll ['\\', '\\'] bsMarker l))

/-- Whitespace class of Python's regex `\s` (ASCII subset). -/
def isReWs (c : Char) : Bool :=
  c = ' ' || c = '\t' || c = '\n' || c = '\r' || c = '\x0b' || c = '\x0c'

/-- Match of `\s*[}\]]` directly after a comma, for the trailing-comma
substitution. -/
def tcMatch (l : List Char) : Option (List Char × Char × List Char) :=
  let ws := l.takeWhile isReWs
  match l.drop ws.length with
  | c :: rest => if c = '}' || c = ']' then some (ws, c, rest) else none
  | [] => none

/-- `re.sub(r',(\s*[}\]])', r'\1', s)`: left-to-right, non-overlapping. -/
def stripTCAux : Nat → List Char → List Char
  | 0, l => l
  | fuel + 1, l =>
    match l with
    | [] => []
    | c :: rest =>
      if c = ',' then
        match tcMatch rest with
        | some (ws, cl, rest2) => ws ++ cl :: stripTCAux fuel rest2
        | none => c :: stripTCAux fuel rest
      else c :: stripTCAux fuel rest

def stripTCL (l : List Char) : List Char := stripTCAux l.length l

/-- Model of `safe_json_parse`: strip, remove code fences, extract the
first-`{`-to-last-`}` span, then try a direct parse, a backslash
re-escaped parse, and a trailing-comma-stripped parse, in that order. -/
def safe_json_parse (text : String) : Option Json :=
  let cl := pyStripL text.data
  if cl = [] then none
  else
    let cleaned := if [btick, btick, btick].isPrefixOf cl then stripFencesL cl else cl
    match braceSpanL cleaned with
    | none => none
    | some js =>
      match jsonLoadsL js with
      | some p => some p
      | none =>
        let js2 := reescapeL js
        match jsonLoadsL js2 with
        | some p => some p
        | none => jsonLoadsL (stripTCL js2)

/-! ## Key rotator (`get_next_key`) -/

/-- The rotator state: the immutable credential pool and the global cursor
`key_index`. -/
structure RotSt where
  api_keys : List String
  key_index : Nat
deriving DecidableEq, Repr

/-- `get_next_key`: return `API_KEYS[key_index % len(API_KEYS)]` and advance
the cursor by one; every invocation advances, regardless of what the caller
then does with the key. -/
def get_next_key (st : RotSt) : String × RotSt :=
  (st.api_keys.getD (st.key_index % st.api_keys.length) "", ⟨st.api_keys, st.key_index + 1⟩)

/-- `n` consecutive rotator calls, collecting the returned credentials. -/
def rotCalls : RotSt → Nat → List String × RotSt
  | st, 0 => ([], st)
  | st, n + 1 =>
    let p := get_next_key st
    let q := rotCalls p.2 n
    (p.1 :: q.1, q.2)

/-! ## `call_gemini_api` internals -/

/-- One network response, classified the way the source's branches
classify it: HTTP 200 with extractable text, HTTP 200 without
candidates/content, HTTP 429, another status code, a timeout, a network
error, or any other exception while handling the response. -/
inductive ApiResp where
  | success (text : String)
  | emptyBody
  | rateLimited
  | otherStatus (code : Nat)
  | timeout
  | netError
  | otherExc
deriving DecidableEq, Repr

/-- Record of one attempt: the credential used, how the request went, and
whether the loop slept (`time.sleep(0.5)`) after it. -/
structure Attempt where
  key : String
  resp : ApiResp
  slept : Bool
deriving DecidableEq, Repr

def respIsRL : ApiResp → Bool
  | .rateLimited => true
  | _ => false

/-- Success condition of the loop body: status 200 and non-empty stripped
text. -/
def respGood : ApiResp → Bool
  | .success t => !(pyStripL t.data).isEmpty
  | _ => false

def respText : ApiResp → String
  | .success t => ⟨pyStripL t.data⟩
  | _ => ""

/-- The retry loop of `call_gemini_api`: one pass per remaining credential.
`oracle` gives the response of the n-th attempt of this call; the result is
the returned text (or the absence signal `none`), the attempt trace, and
the rotator cursor after the call. -/
def cgaLoop (keys : List String) (oracle : Nat → ApiResp) :
    Nat → Nat → Nat → Option String × List Attempt × Nat
  | _, 0, idx => (none, [], idx)
  | attempt, r + 1, idx =>
    let key := keys.getD (idx % keys.length) ""
    match oracle attempt with
    | .success t =>
      if !(pyStripL t.data).isEmpty then
        (some ⟨pyStripL t.data⟩, [⟨key, .success t, false⟩], idx + 1)
      else
        let p := cgaLoop keys oracle (attempt + 1) r (idx + 1)
        (p.1, ⟨key, .success t, false⟩ :: p.2.1, p.2.2)
    | .rateLimited =>
      let p := cgaLoop keys oracle (attempt + 1) r (idx + 1)
      (p.1, ⟨key, .rateLimited, true⟩ :: p.2.1, p.2.2)
    | resp =>
      let p := cgaLoop keys oracle (attempt + 1) r (idx + 1)
      (p.1, ⟨key, resp, false⟩ :: p.2.1, p.2.2)

/-- `call_gemini_api`: up to `len(API_KEYS)` attempts, each with a fresh
credential from the rotator starting at cursor `idx`. -/
def call_gemini_api (keys : List String) (oracle : Nat → ApiResp) (idx : Nat) :
    Option String × List Attempt × Nat :=
  cgaLoop keys oracle 0 keys.length idx

/-! ## Translator with cache (`translate_topic_to_english`) -/

/-- The external model capability as its callers see it: the n-th
`call_gemini_api` invocation of the run returns text, or `none` for the
absence signal after key exhaustion. -/
structure ApiEnv where
  api : Nat → Option String

/-- Threaded mutable state of the structuring pipeline: the topic tracker,
the translation cache, and the count of model invocations so far. -/
structure Tracker where
  current_topic_bn : Option String
  current_topic_en : Option String
deriving DecidableEq, Repr

structure PSt where
  tracker : Tracker
  cache : List (String × String)
  calls : Nat
deriving DecidableEq, Repr

def cacheLookup (cache : List (String × String)) (k : String) : Option String :=
  match cache.find? (fun kv => kv.1 = k) with
  | some kv => some kv.2
  | none => none

/-- `translate_topic_to_english`: short-circuits for the falsy/default and
"Self Test" labels, consults the cache, otherwise invokes the model once;
on success the result is stripped of surrounding quotes and cached, on
absence the fixed default is returned and nothing is cached. -/
def translate_topic_to_english (env : ApiEnv) (st : PSt) (bengali_topic : String) :
    String × PSt :=
  if bengali_topic = "" ∨ bengali_topic = "সাধারণ" then ("General", st)
  else if bengali_topic = "Self Test" then ("Self Test", st)
  else
    match cacheLookup st.cache bengali_topic with
    | some t => (t, st)
    | none =>
      match env.api st.calls with
      | some r =>
        let r2 : String := ⟨pyStripChar '\'' (pyStripChar '"' (pyStripL r.data))⟩
        (r2, { st with cache := st.cache ++ [(bengali_topic, r2)], calls := st.calls + 1 })
      | none => ("General", { st with calls := st.calls + 1 })

/-! ## Topic tracking and block structuring (`extract_structured_questions`) -/

/-- The topic-resolution step for one accepted block (source lines
396-418), including the final fall-back to the default pair when no topic
is set. -/
def topicStep (env : ApiEnv) (st : PSt) (marker : Option String) : PSt :=
  let st1 :=
    match marker with
    | none => st
    | some m =>
      if m = "" then st
      else if m = "CONTINUE" then st
      else if m = "Self Test" then
        if st.tracker.current_topic_bn ≠ some "Self Test" then
          { st with tracker := ⟨some "Self Test", some "Self Test"⟩ }
        else st
      else if ¬(m = "সাধারণ" ∨ m = "General") then
        if st.tracker.current_topic_bn ≠ some m then
          let p := translate_topic_to_english env st m
          { p.2 with tracker := ⟨some m, some p.1⟩ }
        else st
      else if st.tracker.current_topic_bn = none then
        { st with tracker := ⟨some "সাধারণ", some "General"⟩ }
      else st
  if st1.tracker.current_topic_bn = none then
    { st1 with tracker := ⟨some "সাধারণ", some "General"⟩ }
  else st1

/-- Fields collected from one raw block by the line loop. -/
structure QData where
  topicStr : Option String := none
  number : Option String := none
  text : Option String := none
  opt_a : Option String := none
  opt_b : Option String := none
  opt_c : Option String := none
  opt_d : Option String := none
  answer : Option String := none
  reference : Option String := none
deriving DecidableEq, Repr

/-- `line.replace(pfx, '').strip()`: the field value carried by a
recognized line. -/
def fieldAfter (pfx : String) (l : List Char) : String :=
  ⟨pyStripL (replaceAll pfx.data [] l)⟩

def startsWithL (pfx : String) (l : List Char) : Bool := pfx.data.isPrefixOf l

/-- Normalization of the raw `ANS:` payload: strip, lower-case, take the
first character, default to `"a"` when empty. -/
def ansNormalize (l : List Char) : String :=
  match pyLower (pyStripL l) with
  | [] => "a"
  | c :: _ => ⟨[c]⟩

/-- One pass of the per-line field scan (stripped line, prefix chain in
source order, later lines overwrite earlier ones). -/
def procLine (qd : QData) (line : List Char) : QData :=
  let l := pyStripL line
  if startsWithL "TOPIC:" l then { qd with topicStr := some (fieldAfter "TOPIC:" l) }
  else if startsWithL "Q_NUM:" l then { qd with number := some (fieldAfter "Q_NUM:" l) }
  else if startsWithL "Q_TEXT:" l then { qd with text := some (fieldAfter "Q_TEXT:" l) }
  else if startsWithL "OPT_A:" l then { qd with opt_a := some (fieldAfter "OPT_A:" l) }
  else if startsWithL "OPT_B:" l then { qd with opt_b := some (fieldAfter "OPT_B:" l) }
  else if startsWithL "OPT_C:" l then { qd with opt_c := some (fieldAfter "OPT_C:" l) }
  else if startsWithL "OPT_D:" l then { qd with opt_d := some (fieldAfter "OPT_D:" l) }
  else if startsWithL "ANS:" l then
    { qd with answer := some (ansNormalize (replaceAll ("ANS:").data [] l)) }
  else if startsWithL "REF:" l then { qd with reference := some (fieldAfter "REF:" l) }
  else qd

def parseBlockFields (block : List Char) : QData :=
  (splitOnL ['\n'] (pyStripL block)).foldl procLine {}

/-- A block is accepted only when number, text, the four options and the
answer are all present. -/
def requiredOk (qd : QData) : Bool :=
  qd.number.isSome && qd.text.isSome && qd.opt_a.isSome && qd.opt_b.isSome &&
  qd.opt_c.isSome && qd.opt_d.isSome && qd.answer.isSome

/-- The source's `math_symbols` list for the difficulty heuristic. -/
def mathSymbols : List String :=
  ["$", "^", "frac", "theta", "Delta", "int", "lim", "sum", "sqrt",
   "\\frac", "\\theta", "\\Delta", "\\int", "\\lim", "\\sum", "\\sqrt"]

structure QOption where
  key : String
  text : String
deriving DecidableEq, Repr

/-- The final structured question record, with the context bag modelled as
a key/value list (`topic_en` may carry Python `None`). -/
structure QuestionObj where
  id : String
  context : List (String × Option String)
  question_text : String
  options : List QOption
  correct_answer_key : String
  reference : String
  tags : List String
  difficulty : String
  is_generated : Bool
  original_question_id : Option String
deriving DecidableEq, Repr

/-- Python dict assignment `d[k] = v` on the modelled context bag. -/
def setCtx (ctx : List (String × Option String)) (k : String) (v : Option String) :
    List (String × Option String) :=
  if ctx.any (fun kv => kv.1 = k) then
    ctx.map (fun kv => if kv.1 = k then (k, v) else kv)
  else ctx ++ [(k, v)]

/-- Assembly of one `question_obj` (source lines 423-461) from the
collected fields and the tracker state after topic resolution. -/
def buildQuestion (base_id : String) (folder_context : List (String × Option String))
    (qd : QData) (tr : Tracker) : QuestionObj :=
  let difficulty :=
    if mathSymbols.any (fun sym => containsSub sym.data (qd.text.getD "").data) then
      "medium-hard"
    else "easy-medium"
  let topic_tags :=
    ["MCQ", "Mathematics", "Higher_Math", "HSC"] ++
      (match tr.current_topic_en with
       | some e =>
         if e ≠ "" then [(⟨replaceAll ['-'] ['_'] (replaceAll [' '] ['_'] e.data)⟩ : String)]
         else []
       | none => [])
  { id := base_id ++ "_" ++ ⟨replaceAll ['.'] [] (qd.number.getD "").data⟩
    context := setCtx (setCtx folder_context "topic_bn" tr.current_topic_bn)
      "topic_en" tr.current_topic_en
    question_text := qd.text.getD ""
    options := [⟨"a", qd.opt_a.getD ""⟩, ⟨"b", qd.opt_b.getD ""⟩,
                ⟨"c", qd.opt_c.getD ""⟩, ⟨"d", qd.opt_d.getD ""⟩]
    correct_answer_key := qd.answer.getD ""
    reference := qd.reference.getD "NREF"
    tags := topic_tags
    difficulty := difficulty
    is_generated := false
    original_question_id := none }

/-- The per-block loop of `extract_structured_questions`: blank blocks and
blocks missing required fields are skipped (before any topic-state change);
accepted blocks update the topic state and append one record. -/
def processBlocks (env : ApiEnv) (base_id : String)
    (folder_context : List (String × Option String)) :
    List (List Char) → PSt → List QuestionObj × PSt
  | [], st => ([], st)
  | b :: rest, st =>
    if pyStripL b = [] then processBlocks env base_id folder_context rest st
    else
      let qd := parseBlockFields b
      if requiredOk qd then
        let st1 := topicStep env st qd.topicStr
        let p := processBlocks env base_id folder_context rest st1
        (buildQuestion base_id folder_context qd st1.tracker :: p.1, p.2)
      else processBlocks env base_id folder_context rest st

/-- `extract_structured_questions`: split the raw text on the block
sentinel and run the per-block loop. -/
def extract_structured_questions (env : ApiEnv) (raw_text : String)
    (base_id : String) (folder_context : List (String × Option String))
    (st : PSt) : List QuestionObj × PSt :=
  processBlocks env base_id folder_context (splitOnL ("===END===").data raw_text.data) st

/-! ## Explanation generation (`generate_explanation`) -/

mutual

/-- Python `repr()` of a parsed JSON value (used through `str()` on
containers; approximate for string quoting inside containers, which the
claims never exercise). -/
def pyReprJson : Json → String
  | .str s => "'" ++ s ++ "'"
  | .num t => t
  | .bool b => if b then "True" else "False"
  | .null => "None"
  | .arr xs => "[" ++ pyReprList xs ++ "]"
  | .obj kvs => "\x7b" ++ pyReprKVs kvs ++ "\x7d"

/-- Comma-joined `repr` of list elements. -/
def pyReprList : List Json → String
  | [] => ""
  | [x] => pyReprJson x
  | x :: rest => pyReprJson x ++ ", " ++ pyReprList rest

/-- Comma-joined `repr` of dict items. -/
def pyReprKVs : List (String × Json) → String
  | [] => ""
  | [kv] => "'" ++ kv.1 ++ "': " ++ pyReprJson kv.2
  | kv :: rest => "'" ++ kv.1 ++ "': " ++ pyReprJson kv.2 ++ ", " ++ pyReprKVs rest

end

/-- Python `str()` of a parsed JSON value.  Numeric tokens are kept
verbatim (float re-formatting is not modelled). -/
def pyStrJson : Json → String
  | .str s => s
  | j => pyReprJson j

/-- Python truthiness of a parsed JSON value. -/
def pyTruthy : Json → Bool
  | .str s => s ≠ ""
  | .num t =>
    !((t.data.any (fun c => c = '0')) &&
      !((t.data.takeWhile (fun c => !(c = 'e' || c = 'E'))).any isDigit19))
  | .bool b => b
  | .null => false
  | .arr xs => !xs.isEmpty
  | .obj kvs => !kvs.isEmpty

/-- Lookup in a parsed JSON object; `json.loads` keeps the last of
duplicate keys, so the lookup is last-wins. -/
def lookupLast (kvs : List (String × Json)) (k : String) : Option Json :=
  match kvs.reverse.find? (fun kv => kv.1 = k) with
  | some kv => some kv.2
  | none => none

def jGet : Json → String → Option Json
  | .obj kvs, k => lookupLast kvs k
  | _, _ => none

def requiredFields : List String :=
  ["short", "detailed", "mathematical_derivation", "key_concept",
   "common_mistakes", "real_world_application", "memory_tip"]

/-- One conjunct of the completeness check:
`field in parsed_json and parsed_json[field] and len(str(parsed_json[field]).strip()) > 5`. -/
def fieldOk (j : Json) (f : String) : Bool :=
  match jGet j f with
  | some v => pyTruthy v && decide ((pyStripL (pyStrJson v).data).length > 5)
  | none => false

def fieldsOk (j : Json) : Bool := requiredFields.all (fieldOk j)

/-- `parsed_json["short"].strip().startswith(prefix)`.  When the field
holds a non-string value, the attribute access raises (`.error`), exactly
as `.strip()` does on a Python non-string. -/
def shortStarts (j : Json) (ansU : String) : Except Unit Bool :=
  match jGet j "short" with
  | some (.str s) => .ok (("সঠিক উত্তর: " ++ ansU).data.isPrefixOf (pyStripL s.data))
  | _ => .error ()

/-- The deterministic fallback record returned after three failed
attempts, fields and texts exactly as in the source. -/
def fallback_explanation (correct_answer : String) : Json :=
  Json.obj
    [("short", Json.str ("সঠিক উত্তর: " ++ correct_answer.toUpper)),
     ("detailed", Json.str "এই প্রশ্নটি উচ্চতর গণিতের একটি গুরুত্বপূর্ণ ধারণা পরীক্ষা করে। উত্তরটি সাবধানে পড়ুন এবং প্রতিটি বিকল্প বিশ্লেষণ করুন।"),
     ("mathematical_derivation", Json.str "প্রাসঙ্গিক সূত্র এবং নীতি প্রয়োগ করা হয়েছে।"),
     ("key_concept", Json.str "এই ধারণাটি উচ্চতর গণিতের মূল বিষয়গুলির একটি। নিয়মিত অনুশীলনের মাধ্যমে আপনি এটি আরও ভালভাবে বুঝতে পারবেন।"),
     ("common_mistakes", Json.str "অনেক শিক্ষার্থী বিভিন্ন বিকল্পের সূক্ষ্ম পার্থক্য বুঝতে ভুল করে। প্রতিটি বিকল্প সাবধানে বিশ্লেষণ করুন এবং মূল ধারণাটি চিহ্নিত করুন।"),
     ("real_world_application", Json.str "এই গাণিতিক নীতিগুলি প্রকৌশল, পদার্থবিজ্ঞান এবং কম্পিউটার বিজ্ঞানে ব্যাপকভাবে ব্যবহৃত হয়। উচ্চতর পড়াশোনায় এই ধারণাগুলি অত্যন্ত গুরুত্বপূর্ণ।"),
     ("memory_tip", Json.str "নিয়মিত অনুশীলন এবং পুনরাবৃত্তি এটি স্মরণ করতে সাহায্য করবে। সূত্র এবং ধাপগুলি মনে রাখার জন্য সংক্ষিপ্ত নোট তৈরি করুন।")]

/-- The retry loop of `generate_explanation`: `n` is the model-call index
of the next attempt, the second argument the remaining attempts.  Each
attempt issues one model call; a response is accepted when it parses, all
seven fields pass the completeness check and the `short` field starts with
the fixed answer prefix.  `Except.error` models the uncaught
`AttributeError` on a non-string `short` reaching `.strip()`. -/
def genLoop (env : ApiEnv) (ans : String) : Nat → Nat → Except Unit Json
  | _, 0 => .ok (fallback_explanation ans)
  | n, r + 1 =>
    match env.api n with
    | some result =>
      match safe_json_parse result with
      | some pj =>
        if fieldsOk pj then
          match shortStarts pj ans.toUpper with
          | .error e => .error e
          | .ok true => .ok pj
          | .ok false => genLoop env ans (n + 1) r
        else genLoop env ans (n + 1) r
      | none => genLoop env ans (n + 1) r
    | none => genLoop env ans (n + 1) r

/-- `generate_explanation`: up to 3 attempts, then the deterministic
fallback record.  The question text and options shape only the prompt, so
they are carried but unused by the oracle-based model. -/
def generate_explanation (env : ApiEnv) (_question_text : String)
    (_options : List QOption) (correct_answer : String) : Except Unit Json :=
  genLoop env correct_answer 0 3

/-! ## Batch runner checkpointing (`process_folder_with_breaks`) -/

/-- Outcome of `process_image` for one image: a record list, `None`
(extraction or structuring failed), or an uncaught exception. -/
inductive ImgOutcome where
  | ok
  | noRecords
  | crash
deriving DecidableEq, Repr

/-- Observable file-system/pause events of the folder loop. -/
inductive RunEvent where
  | savedImage (idx : Nat)
  | checkpoint (folder : String) (processed : Nat) (total : Nat) (time : Nat)
      (snapshot : Tracker)
  | pause
deriving DecidableEq, Repr

/-- One iteration of the folder loop (source lines 675-717): on a normal
return the per-image output (when any) is saved, then `save_progress_state`
writes the checkpoint, then the batch pause may run; an uncaught exception
skips all three and the loop continues. -/
def imageStep (folder : String) (clock : Nat → Nat) (trackAfter : Nat → Tracker)
    (batch_size : Nat) (total : Nat) (outcome : ImgOutcome) (idx : Nat) :
    List RunEvent :=
  let pauseEvts :=
    if (idx + 1) % batch_size = 0 ∧ (idx + 1) < total then [RunEvent.pause] else []
  match outcome with
  | .crash => []
  | .ok =>
    RunEvent.savedImage idx ::
      RunEvent.checkpoint folder (idx + 1) total (clock idx) (trackAfter idx) :: pauseEvts
  | .noRecords =>
    RunEvent.checkpoint folder (idx + 1) total (clock idx) (trackAfter idx) :: pauseEvts

/-- The image loop of `process_folder_with_breaks`, as the trace of its
events: `outcomes idx` abstracts what `process_image` does on image `idx`
and `trackAfter idx` the topic-tracker value right after it; `clock idx`
is the checkpoint timestamp. -/
def process_folder_with_breaks (folder : String) (clock : Nat → Nat)
    (trackAfter : Nat → Tracker) (batch_size : Nat)
    (outcomes : Nat → ImgOutcome) (start total : Nat) : List RunEvent :=
  ((List.range' start (total - start)).map
    (fun idx => imageStep folder clock trackAfter batch_size total (outcomes idx) idx)).flatten

/-! ## Claim-side formulas and input families

These definitions follow the words of the specification claims; the
theorems compare them against the embedded source functions. -/

/-- Claim-side answer normalization: default `"a"` when empty after
stripping, otherwise the lower-cased first character. -/
def specAnswer (l : List Char) : String :=
  match pyStripL l with
  | [] => "a"
  | c :: _ => ⟨[Char.toLower c]⟩

/-- The marker list of the difficulty claim: the nine bare markers and the
backslash-prefixed forms of the seven word markers. -/
def specMathMarkers : List String :=
  ["$", "^", "frac", "theta", "Delta", "int", "lim", "sum", "sqrt",
   "\\frac", "\\theta", "\\Delta", "\\int", "\\lim", "\\sum", "\\sqrt"]

/-- Claim-side difficulty: `"medium-hard"` exactly when the question text
contains one of the markers, `"easy-medium"` otherwise. -/
def specDifficulty (t : String) : String :=
  if specMathMarkers.any (fun m => containsSub m.data t.data) then "medium-hard"
  else "easy-medium"

/-- A string-valued JSON object serialized with its string values written
raw (backslashes NOT escaped), the claim's model of the LLM output. -/
def rawQuoted (s : String) : List Char := '"' :: (s.data ++ ['"'])

def rawPairL (kv : String × String) : List Char :=
  rawQuoted kv.1 ++ ':' :: ' ' :: rawQuoted kv.2

def serializeRawL (pairs : List (String × String)) : List Char :=
  '{' :: (joinSep [',', ' '] (pairs.map rawPairL) ++ ['}'])

/-- The raw object wrapped in fenced-code markers, the claim's input. -/
def fencedInput (pairs : List (String × String)) : String :=
  ⟨("```json\n").data ++ serializeRawL pairs ++ '\n' :: ("```").data⟩

/-- Double every backslash (what the re-escape step does to a text without
adjacent backslashes and without the sentinel). -/
def doubleBS : List Char → List Char
  | [] => []
  | c :: rest => if c = '\\' then '\\' :: '\\' :: doubleBS rest else c :: doubleBS rest

def escPairL (kv : String × String) : List Char :=
  rawQuoted kv.1 ++ ':' :: ' ' :: '"' :: (doubleBS kv.2.data ++ ['"'])

/-- The same object, serialized with properly escaped backslashes. -/
def serializeEscL (pairs : List (String × String)) : List Char :=
  '{' :: (joinSep [',', ' '] (pairs.map escPairL) ++ ['}'])

/-- Characters allowed in keys of the claim's input family: printable,
no quote, no backslash. -/
def okKeyChar (c : Char) : Bool := c ≠ '"' && c ≠ '\\' && decide (0x20 ≤ c.toNat)

/-- Characters allowed in values: printable, no quote (backslash
allowed). -/
def okValChar (c : Char) : Bool := c ≠ '"' && decide (0x20 ≤ c.toNat)

/-- Every backslash is followed, inside the value, by a character that is
not a JSON escape character (and in particular not another backslash, and
not at the end of the value). -/
def lonelyBS : List Char → Bool
  | [] => true
  | [c] => c ≠ '\\'
  | c :: e :: rest =>
    if c = '\\' then (escChar e).isNone && e ≠ 'u' && lonelyBS (e :: rest)
    else lonelyBS (e :: rest)

/-- Projection of a string field out of an optional parsed object, used to
state counterexamples without deciding equality of whole JSON values. -/
def jStrField (j : Option Json) (k : String) : Option String :=
  match j with
  | some jj =>
    match jGet jj k with
    | some (.str s) => some s
    | _ => none
  | none => none

/-- The behaviour `call_gemini_api` is claimed to have, as one predicate:
at most pool-size attempts, consecutive rotator credentials, the
per-attempt responses and sleeps recorded faithfully (sleep exactly on
rate limit), immediate return of the first good response, and the absence
signal with a full trace when no attempt is good. -/
def cgaSpec (keys : List String) (oracle : Nat → ApiResp) (idx0 : Nat) : Prop :=
  let res := (call_gemini_api keys oracle idx0).1
  let tr := (call_gemini_api keys oracle idx0).2.1
  let idxF := (call_gemini_api keys oracle idx0).2.2
  tr.length ≤ keys.length ∧
  idxF = idx0 + tr.length ∧
  (∀ j, (h : j < tr.length) →
     (tr.get ⟨j, h⟩).key = keys.getD ((idx0 + j) % keys.length) "" ∧
     (tr.get ⟨j, h⟩).resp = oracle j ∧
     (tr.get ⟨j, h⟩).slept = respIsRL (oracle j)) ∧
  (∀ n, n < keys.length → respGood (oracle n) = true →
     (∀ m, m < n → respGood (oracle m) = false) →
     res = some (respText (oracle n)) ∧ tr.length = n + 1) ∧
  ((∀ n, n < keys.length → respGood (oracle n) = false) →
     res = none ∧ tr.length = keys.length)

/-- A default record, used only to state closed witness instances. -/
def defaultQ : QuestionObj :=
  { id := "", context := [], question_text := "", options := [],
    correct_answer_key := "", reference := "", tags := [], difficulty := "",
    is_generated := false, original_question_id := none }

/-! ## Helper lemmas -/

theorem cacheLookup_append_of_none (c : List (String × String)) (k v : String)
    (h : cacheLookup c k = none) : cacheLookup (c ++ [(k, v)]) k = some v := by
  unfold cacheLookup at *
  rw [List.find?_append]
  cases hf : c.find? (fun kv => kv.1 = k) with
  | none => simp [Option.orElse]
  | some kv => rw [hf] at h; simp at h

theorem processBlocks_append (env : ApiEnv) (base_id : String)
    (ctx : List (String × Option String)) (l1 l2 : List (List Char)) (st : PSt) :
    processBlocks env base_id ctx (l1 ++ l2) st =
      ((processBlocks env base_id ctx l1 st).1 ++
        (processBlocks env base_id ctx l2 (processBlocks env base_id ctx l1 st).2).1,
       (processBlocks env base_id ctx l2 (processBlocks env base_id ctx l1 st).2).2) := by
  induction l1 generalizing st with
  | nil => simp [processBlocks]
  | cons b rest ih =>
    by_cases hb : pyStripL b = []
    · simp only [List.cons_append, processBlocks, hb, if_pos, ite_true]
      exact ih st
    · by_cases hq : requiredOk (parseBlockFields b)
      · simp only [List.cons_append, processBlocks, hb, hq, ite_false, ite_true, if_neg,
          if_pos]
        rw [List.append_eq, ih]
      · simp only [List.cons_append, processBlocks, hb, hq, ite_false, if_neg]
        exact ih st

theorem processBlocks_skip (env : ApiEnv) (base_id : String)
    (ctx : List (String × Option String)) (b : List Char) (rest : List (List Char))
    (st : PSt) (h : requiredOk (parseBlockFields b) = false) :
    processBlocks env base_id ctx (b :: rest) st =
      processBlocks env base_id ctx rest st := by
  by_cases hb : pyStripL b = []
  · simp [processBlocks, hb]
  · simp [processBlocks, hb, h]

/-! ## Claim C4 -/

/-- C4: there is a raw extraction block the delimited-text parser accepts
whose structured record carries a `correct_answer_key` outside
`{a, b, c, d}`: the answer letter is propagated into the record without a
membership check. -/
theorem c4_answer_key_unchecked :
    ((extract_structured_questions ⟨fun _ => none⟩
        ("Q_NUM: 1\nQ_TEXT: what\nOPT_A: p\nOPT_B: q\nOPT_C: r\nOPT_D: s\nANS: Z\nREF: NREF\n===END===")
        ("math_hs") [] ⟨⟨none, none⟩, [], 0⟩).1.map
      (fun q => q.correct_answer_key)) = ["z"] ∧
    ("z" : String) ∉ (["a", "b", "c", "d"] : List String) := by
  exact ⟨by decide, by decide⟩

/-! ## Claim C1 -/

/-- C1, counterexample: when the model capability signals absence, the
first translation call invokes it without caching anything, so a second
call for the same label invokes it again — two invocations for one label
within one run, and the label is absent from the cache after the first
call. -/
theorem c1_translation_cache_counterexample :
    (translate_topic_to_english ⟨fun _ => none⟩
        (translate_topic_to_english ⟨fun _ => none⟩ ⟨⟨none, none⟩, [], 0⟩ "ভেক্টর").2
        "ভেক্টর").2.calls = 2 ∧
    cacheLookup
        (translate_topic_to_english ⟨fun _ => none⟩ ⟨⟨none, none⟩, [], 0⟩ "ভেক্টর").2.cache
        "ভেক্টর" = none := by
  exact ⟨rfl, rfl⟩

/-- C1, amended: for a label that is not falsy, not the default sentinel
and not "Self Test", and whose first cache-miss model invocation responds
(no absence signal), translating twice invokes the model at most once in
total: the second call returns the first call's value and leaves the state
untouched. -/
theorem c1_translation_cache_amended (env : ApiEnv) (st : PSt) (label : String)
    (h1 : label ≠ "") (h2 : label ≠ "সাধারণ") (h3 : label ≠ "Self Test")
    (h4 : (env.api st.calls).isSome = true) :
    (translate_topic_to_english env
        (translate_topic_to_english env st label).2 label).2 =
      (translate_topic_to_english env st label).2 ∧
    (translate_topic_to_english env
        (translate_topic_to_english env st label).2 label).1 =
      (translate_topic_to_english env st label).1 ∧
    (translate_topic_to_english env st label).2.calls ≤ st.calls + 1 := by
  cases hc : cacheLookup st.cache label with
  | some t =>
    simp only [translate_topic_to_english, h1, h2, h3, hc, or_self, if_false,
      false_or, if_neg, ite_false]
    simp [h1, h2, h3, hc]
  | none =>
    obtain ⟨r, hr⟩ := Option.isSome_iff_exists.mp h4
    have hl := cacheLookup_append_of_none st.cache label
      (⟨pyStripChar '\'' (pyStripChar '"' (pyStripL r.data))⟩ : String) hc
    simp only [translate_topic_to_english, h1, h2, h3, hc, hr]
    simp [h1, h2, h3, hl]

/-- C1, witness for the amended theorem. -/
theorem c1_translation_cache_witness :
    (translate_topic_to_english ⟨fun _ => some "Vector"⟩
        (translate_topic_to_english ⟨fun _ => some "Vector"⟩ ⟨⟨none, none⟩, [], 0⟩
          "ভেক্টর").2 "ভেক্টর").2 =
      (translate_topic_to_english ⟨fun _ => some "Vector"⟩ ⟨⟨none, none⟩, [], 0⟩
          "ভেক্টর").2 ∧
    (translate_topic_to_english ⟨fun _ => some "Vector"⟩
        (translate_topic_to_english ⟨fun _ => some "Vector"⟩ ⟨⟨none, none⟩, [], 0⟩
          "ভেক্টর").2 "ভেক্টর").1 =
      (translate_topic_to_english ⟨fun _ => some "Vector"⟩ ⟨⟨none, none⟩, [], 0⟩
          "ভেক্টর").1 ∧
    (translate_topic_to_english ⟨fun _ => some "Vector"⟩ ⟨⟨none, none⟩, [], 0⟩
        "ভেক্টর").2.calls ≤ 0 + 1 :=
  c1_translation_cache_amended ⟨fun _ => some "Vector"⟩ ⟨⟨none, none⟩, [], 0⟩
    "ভেক্টর" (by decide) (by decide) (by decide) (by decide)

/-! ## Claim C8 -/

/-- C8: a block whose topic marker is exactly "Self Test" switches the
topic state to ("Self Test", "Self Test") whenever the current source
label differs — whatever that label is, including a generic non-default
one — and the transition performs no model call and no cache change (the
"Self Test" check fires before the generic-label branch). -/
theorem c8_self_test_precedence (env : ApiEnv) (st : PSt)
    (h : st.tracker.current_topic_bn ≠ some "Self Test") :
    topicStep env st (some "Self Test") =
      { st with tracker := ⟨some "Self Test", some "Self Test"⟩ } ∧
    (topicStep env st (some "Self Test")).calls = st.calls ∧
    (topicStep env st (some "Self Test")).cache = st.cache := by
  have hst : topicStep env st (some "Self Test") =
      { st with tracker := ⟨some "Self Test", some "Self Test"⟩ } := by
    simp [topicStep, h]
  exact ⟨hst, by rw [hst], by rw [hst]⟩

/-- C8, witness: the previous label is the generic non-default label
"ভেক্টর". -/
theorem c8_self_test_witness :
    topicStep ⟨fun _ => none⟩ ⟨⟨some "ভেক্টর", some "Vector"⟩, [], 0⟩
        (some "Self Test") =
      { tracker := ⟨some "Self Test", some "Self Test"⟩, cache := [], calls := 0 } ∧
    (topicStep ⟨fun _ => none⟩ ⟨⟨some "ভেক্টর", some "Vector"⟩, [], 0⟩
        (some "Self Test")).calls = 0 ∧
    (topicStep ⟨fun _ => none⟩ ⟨⟨some "ভেক্টর", some "Vector"⟩, [], 0⟩
        (some "Self Test")).cache = [] :=
  c8_self_test_precedence ⟨fun _ => none⟩ ⟨⟨some "ভেক্টর", some "Vector"⟩, [], 0⟩
    (by decide)

/-! ## Claim C2 -/

/-- C2, counterexample: a folder run whose single image raises an uncaught
exception inside the loop body produces no events at all — in particular
no checkpoint is persisted for that image, although the claim promises one
for every image regardless of success or failure. -/
theorem c2_checkpoint_counterexample :
    process_folder_with_breaks ("f") (fun _ => 0) (fun _ => ⟨none, none⟩) 20
        (fun _ => ImgOutcome.crash) 0 1 = ([] : List RunEvent) ∧
    RunEvent.checkpoint ("f") 1 1 0 ⟨none, none⟩ ∉
      process_folder_with_breaks ("f") (fun _ => 0) (fun _ => ⟨none, none⟩) 20
        (fun _ => ImgOutcome.crash) 0 1 := by
  exact ⟨rfl, by decide⟩

/-- C2, amended: for every image of the folder run whose processing
completes without an uncaught exception — both when it yields records and
when it reports failure (`None`) — a checkpoint with the folder name, the
processed count, the total, the timestamp and the topic snapshot is
persisted after that image. -/
theorem c2_checkpoint_amended (folder : String) (clock : Nat → Nat)
    (trackAfter : Nat → Tracker) (batch_size : Nat) (outcomes : Nat → ImgOutcome)
    (start total idx : Nat) (h1 : start ≤ idx) (h2 : idx < total)
    (h3 : outcomes idx ≠ ImgOutcome.crash) :
    RunEvent.checkpoint folder (idx + 1) total (clock idx) (trackAfter idx) ∈
      process_folder_with_breaks folder clock trackAfter batch_size outcomes start total := by
  unfold process_folder_with_breaks
  rw [List.mem_flatten]
  refine ⟨imageStep folder clock trackAfter batch_size total (outcomes idx) idx,
    List.mem_map_of_mem _ ?_, ?_⟩
  · rw [List.mem_range'_1]; omega
  · cases h : outcomes idx with
    | crash => exact absurd h h3
    | ok => simp [imageStep]
    | noRecords => simp [imageStep]

/-- C2, witness for the amended theorem: the image fails (no records) and
the checkpoint is still persisted. -/
theorem c2_checkpoint_witness :
    RunEvent.checkpoint ("f") 1 2 0 ⟨none, none⟩ ∈
      process_folder_with_breaks ("f") (fun _ => 0) (fun _ => ⟨none, none⟩) 20
        (fun _ => ImgOutcome.noRecords) 0 2 :=
  c2_checkpoint_amended ("f") (fun _ => 0) (fun _ => ⟨none, none⟩) 20
    (fun _ => ImgOutcome.noRecords) 0 2 0 (by decide) (by decide) (by decide)

/-! ## Claim C7 -/

theorem requiredOk_of_blank (b : List Char) (h : pyStripL b = []) :
    requiredOk (parseBlockFields b) = false := by
  unfold parseBlockFields
  rw [h]
  rfl

/-- C7: in delimited-text mode, (i) a block whose required fields are not
all present is discarded while every other block of the same raw text is
still processed against the same state — parsing never aborts the batch;
(ii) a single block yields exactly one record when number, text, the four
options and the answer are present and none otherwise; (iii) the answer
field is normalized exactly as claimed: lower-cased, truncated to its
first character, defaulting to "a" when empty after stripping. -/
theorem c7_block_parsing :
    (∀ (env : ApiEnv) (base_id : String) (ctx : List (String × Option String))
        (bs1 : List (List Char)) (b : List Char) (bs2 : List (List Char)) (st : PSt),
      requiredOk (parseBlockFields b) = false →
      processBlocks env base_id ctx (bs1 ++ b :: bs2) st =
        processBlocks env base_id ctx (bs1 ++ bs2) st) ∧
    (∀ (env : ApiEnv) (base_id : String) (ctx : List (String × Option String))
        (b : List Char) (st : PSt),
      (processBlocks env base_id ctx [b] st).1.length =
        if requiredOk (parseBlockFields b) then 1 else 0) ∧
    (∀ l : List Char, ansNormalize l = specAnswer l) := by
  refine ⟨?_, ?_, ?_⟩
  · intro env bid ctx bs1 b bs2 st h
    rw [processBlocks_append env bid ctx bs1 (b :: bs2) st,
        processBlocks_append env bid ctx bs1 bs2 st,
        processBlocks_skip env bid ctx b bs2 _ h]
  · intro env bid ctx b st
    by_cases hq : requiredOk (parseBlockFields b)
    · have hb : pyStripL b ≠ [] := by
        intro hb
        rw [requiredOk_of_blank b hb] at hq
        simp at hq
      simp [processBlocks, hb, hq]
    · by_cases hb : pyStripL b = []
      · simp [processBlocks, hb, hq]
      · simp [processBlocks, hb, hq]
  · intro l
    unfold ansNormalize specAnswer pyLower
    cases pyStripL l with
    | nil => rfl
    | cons c rest => rfl

/-- C7, witness: one complete and one incomplete block; the incomplete one
is discarded and the complete one still yields its record; answer
normalization at a concrete raw answer. -/
theorem c7_block_witness :
    processBlocks ⟨fun _ => none⟩ ("id") []
        ([("Q_NUM: 1\nQ_TEXT: t\nOPT_A: p\nOPT_B: q\nOPT_C: r\nOPT_D: s\nANS: a").data] ++
          ("Q_NUM: 2\nQ_TEXT: incomplete").data :: []) ⟨⟨none, none⟩, [], 0⟩ =
      processBlocks ⟨fun _ => none⟩ ("id") []
        ([("Q_NUM: 1\nQ_TEXT: t\nOPT_A: p\nOPT_B: q\nOPT_C: r\nOPT_D: s\nANS: a").data] ++ [])
        ⟨⟨none, none⟩, [], 0⟩ ∧
    ansNormalize (("  B extra").data) = specAnswer (("  B extra").data) :=
  ⟨c7_block_parsing.1 ⟨fun _ => none⟩ ("id") []
      [("Q_NUM: 1\nQ_TEXT: t\nOPT_A: p\nOPT_B: q\nOPT_C: r\nOPT_D: s\nANS: a").data]
      (("Q_NUM: 2\nQ_TEXT: incomplete").data) [] ⟨⟨none, none⟩, [], 0⟩ (by decide),
   c7_block_parsing.2.2 (("  B extra").data)⟩

/-! ## Claim C10 -/

/-- C10: every record produced by the structuring loop has its difficulty
equal to the claim's two-valued marker formula on its own question text:
"medium-hard" exactly when the text contains one of the fixed math-symbol
markers, "easy-medium" otherwise. -/
theorem c10_difficulty (env : ApiEnv) (base_id : String)
    (ctx : List (String × Option String)) (blocks : List (List Char)) :
    ∀ st : PSt, ∀ q ∈ (processBlocks env base_id ctx blocks st).1,
      q.difficulty = specDifficulty q.question_text ∧
      (q.difficulty = "medium-hard" ∨ q.difficulty = "easy-medium") := by
  induction blocks with
  | nil => intro st q hq; simp [processBlocks] at hq
  | cons b rest ih =>
    intro st q hq
    by_cases hb : pyStripL b = []
    · rw [processBlocks, if_pos hb] at hq
      exact ih st q hq
    · by_cases hr : requiredOk (parseBlockFields b)
      · rw [processBlocks, if_neg hb, if_pos hr] at hq
        rcases List.mem_cons.mp hq with rfl | hq2
        · refine ⟨rfl, ?_⟩
          by_cases hm : mathSymbols.any
              (fun sym => containsSub sym.data ((parseBlockFields b).text.getD "").data)
          · left; simp [buildQuestion, hm]
          · right; simp [buildQuestion, hm]
        · exact ih _ q hq2
      · rw [processBlocks, if_neg hb, if_neg hr] at hq
        exact ih st q hq

/-- C10, witness: a concrete record with a math marker in its text. -/
theorem c10_difficulty_witness :
    ((processBlocks ⟨fun _ => none⟩ ("id") []
        [("Q_NUM: 1\nQ_TEXT: $x^2$\nOPT_A: p\nOPT_B: q\nOPT_C: r\nOPT_D: s\nANS: a").data]
        ⟨⟨none, none⟩, [], 0⟩).1.getD 0 defaultQ).difficulty =
      specDifficulty ((processBlocks ⟨fun _ => none⟩ ("id") []
        [("Q_NUM: 1\nQ_TEXT: $x^2$\nOPT_A: p\nOPT_B: q\nOPT_C: r\nOPT_D: s\nANS: a").data]
        ⟨⟨none, none⟩, [], 0⟩).1.getD 0 defaultQ).question_text :=
  (c10_difficulty ⟨fun _ => none⟩ ("id") []
    [("Q_NUM: 1\nQ_TEXT: $x^2$\nOPT_A: p\nOPT_B: q\nOPT_C: r\nOPT_D: s\nANS: a").data]
    ⟨⟨none, none⟩, [], 0⟩ _ (by decide)).1

/-! ## Claim C9 -/

theorem rotCalls_formula (keys : List String) : ∀ (n idx : Nat),
    rotCalls ⟨keys, idx⟩ n =
      ((List.range n).map (fun j => keys.getD ((idx + j) % keys.length) ""),
       ⟨keys, idx + n⟩) := by
  intro n
  induction n with
  | zero => intro idx; simp [rotCalls]
  | succ n ih =>
    intro idx
    rw [rotCalls]
    simp only [get_next_key]
    rw [ih (idx + 1)]
    rw [List.range_succ_eq_map, List.map_cons, List.map_map]
    refine Prod.ext ?_ ?_
    · simp only [Nat.add_zero]
      refine congrArg₂ List.cons rfl ?_
      apply List.map_congr_left
      intro j _
      simp only [Function.comp_apply, Nat.succ_eq_add_one]
      have he : idx + 1 + j = idx + (j + 1) := by omega
      rw [he]
    · simp only []
      congr 1
      omega

theorem rotCalls_round_robin (keys : List String) (idx : Nat) (hk : keys ≠ []) :
    (rotCalls ⟨keys, idx⟩ keys.length).1 =
      keys.drop (idx % keys.length) ++ keys.take (idx % keys.length) := by
  rw [rotCalls_formula]
  have hlen : 0 < keys.length := List.length_pos.mpr hk
  have hrlt : idx % keys.length < keys.length := Nat.mod_lt idx hlen
  apply List.ext_getElem
  · simp only [List.length_map, List.length_range, List.length_append,
      List.length_drop, List.length_take]
    omega
  · intro j h1 h2
    simp only [List.getElem_map, List.getElem_range]
    have hmod : (idx + j) % keys.length = (idx % keys.length + j) % keys.length := by
      conv_lhs => rw [← Nat.div_add_mod idx keys.length]
      rw [Nat.add_assoc, Nat.mul_add_mod]
    rw [hmod]
    simp only [List.length_map, List.length_range] at h1
    by_cases hj : j < keys.length - idx % keys.length
    · rw [Nat.mod_eq_of_lt (by omega)]
      rw [List.getD_eq_getElem _ _ (by omega)]
      rw [List.getElem_append_left (by simp only [List.length_drop]; omega)]
      rw [List.getElem_drop]
    · rw [Nat.mod_eq_sub_mod (by omega), Nat.mod_eq_of_lt (by omega)]
      rw [List.getD_eq_getElem _ _ (by omega)]
      rw [List.getElem_append_right (by simp only [List.length_drop]; omega)]
      rw [List.getElem_take]
      congr 1
      simp only [List.length_drop]
      omega

/-- C9: for a pool of size k ≥ 1 and any starting cursor, k consecutive
rotator calls return the pool as a rotation (each credential exactly once,
in the fixed round-robin order, with no dependence on what the caller does
with the keys), and every invocation advances the cursor by exactly one. -/
theorem c9_round_robin (keys : List String) (idx : Nat) (hk : keys ≠ []) :
    (rotCalls ⟨keys, idx⟩ keys.length).1 =
      keys.drop (idx % keys.length) ++ keys.take (idx % keys.length) ∧
    (rotCalls ⟨keys, idx⟩ keys.length).1.Perm keys ∧
    (rotCalls ⟨keys, idx⟩ keys.length).2 = ⟨keys, idx + keys.length⟩ ∧
    (∀ n : Nat, (rotCalls ⟨keys, idx⟩ n).2 = ⟨keys, idx + n⟩) := by
  refine ⟨rotCalls_round_robin keys idx hk, ?_, ?_, ?_⟩
  · rw [rotCalls_round_robin keys idx hk]
    have h1 : (keys.drop (idx % keys.length) ++ keys.take (idx % keys.length)).Perm
        (keys.take (idx % keys.length) ++ keys.drop (idx % keys.length)) :=
      List.perm_append_comm
    have h2 : keys.take (idx % keys.length) ++ keys.drop (idx % keys.length) = keys :=
      List.take_append_drop _ keys
    rw [h2] at h1
    exact h1
  · simp [rotCalls_formula]
  · intro n; simp [rotCalls_formula]

/-- C9, witness: pool of three keys, cursor 4. -/
theorem c9_round_robin_witness :
    (rotCalls ⟨["k1", "k2", "k3"], 4⟩ 3).1 =
      (["k1", "k2", "k3"] : List String).drop (4 % 3) ++
        (["k1", "k2", "k3"] : List String).take (4 % 3) ∧
    (rotCalls ⟨["k1", "k2", "k3"], 4⟩ 3).1.Perm ["k1", "k2", "k3"] ∧
    (rotCalls ⟨["k1", "k2", "k3"], 4⟩ 3).2 = ⟨["k1", "k2", "k3"], 4 + 3⟩ ∧
    (∀ n : Nat, (rotCalls ⟨["k1", "k2", "k3"], 4⟩ n).2 = ⟨["k1", "k2", "k3"], 4 + n⟩) := by
  have h := c9_round_robin ["k1", "k2", "k3"] 4 (by decide)
  simpa using h

/-! ## Claim C5 -/

theorem cgaLoop_succ_good (keys : List String) (oracle : Nat → ApiResp)
    (a r idx : Nat) (h : respGood (oracle a) = true) :
    cgaLoop keys oracle a (r + 1) idx =
      (some (respText (oracle a)),
       [⟨keys.getD (idx % keys.length) "", oracle a, false⟩], idx + 1) := by
  cases ho : oracle a with
  | success t =>
    have ht : (!(pyStripL t.data).isEmpty) = true := by
      rw [ho] at h; simpa [respGood] using h
    simp [cgaLoop, ho, ht, respText]
  | emptyBody => rw [ho] at h; simp [respGood] at h
  | rateLimited => rw [ho] at h; simp [respGood] at h
  | otherStatus code => rw [ho] at h; simp [respGood] at h
  | timeout => rw [ho] at h; simp [respGood] at h
  | netError => rw [ho] at h; simp [respGood] at h
  | otherExc => rw [ho] at h; simp [respGood] at h

theorem cgaLoop_succ_not_good (keys : List String) (oracle : Nat → ApiResp)
    (a r idx : Nat) (h : respGood (oracle a) = false) :
    cgaLoop keys oracle a (r + 1) idx =
      ((cgaLoop keys oracle (a + 1) r (idx + 1)).1,
       ⟨keys.getD (idx % keys.length) "", oracle a, respIsRL (oracle a)⟩ ::
         (cgaLoop keys oracle (a + 1) r (idx + 1)).2.1,
       (cgaLoop keys oracle (a + 1) r (idx + 1)).2.2) := by
  cases ho : oracle a with
  | success t =>
    have ht : (!(pyStripL t.data).isEmpty) = false := by
      rw [ho] at h; simpa [respGood] using h
    simp [cgaLoop, ho, ht, respIsRL]
  | emptyBody => simp [cgaLoop, ho, respIsRL]
  | rateLimited => simp [cgaLoop, ho, respIsRL]
  | otherStatus code => simp [cgaLoop, ho, respIsRL]
  | timeout => simp [cgaLoop, ho, respIsRL]
  | netError => simp [cgaLoop, ho, respIsRL]
  | otherExc => simp [cgaLoop, ho, respIsRL]

theorem cgaLoop_spec (keys : List String) (oracle : Nat → ApiResp) :
    ∀ (r a idx : Nat),
      (cgaLoop keys oracle a r idx).2.1.length ≤ r ∧
      (cgaLoop keys oracle a r idx).2.2 = idx + (cgaLoop keys oracle a r idx).2.1.length ∧
      (∀ j, (h : j < (cgaLoop keys oracle a r idx).2.1.length) →
        ((cgaLoop keys oracle a r idx).2.1.get ⟨j, h⟩).key =
          keys.getD ((idx + j) % keys.length) "" ∧
        ((cgaLoop keys oracle a r idx).2.1.get ⟨j, h⟩).resp = oracle (a + j) ∧
        ((cgaLoop keys oracle a r idx).2.1.get ⟨j, h⟩).slept = respIsRL (oracle (a + j))) ∧
      (∀ n, n < r → respGood (oracle (a + n)) = true →
        (∀ m, m < n → respGood (oracle (a + m)) = false) →
        (cgaLoop keys oracle a r idx).1 = some (respText (oracle (a + n))) ∧
        (cgaLoop keys oracle a r idx).2.1.length = n + 1) ∧
      ((∀ n, n < r → respGood (oracle (a + n)) = false) →
        (cgaLoop keys oracle a r idx).1 = none ∧
        (cgaLoop keys oracle a r idx).2.1.length = r) := by
  intro r
  induction r with
  | zero =>
    intro a idx
    refine ⟨by simp [cgaLoop], by simp [cgaLoop], ?_, ?_, ?_⟩
    · intro j hj; simp [cgaLoop] at hj
    · intro n hn; omega
    · intro _; exact ⟨rfl, rfl⟩
  | succ r ih =>
    intro a idx
    by_cases hg : respGood (oracle a) = true
    · rw [cgaLoop_succ_good keys oracle a r idx hg]
      refine ⟨by simp, by simp, ?_, ?_, ?_⟩
      · intro j hj
        simp only [List.length_cons, List.length_nil] at hj
        interval_cases j
        refine ⟨by simp, by simp, ?_⟩
        simp only [List.get]
        cases ho : oracle a with
        | success t => simp [ho, respIsRL]
        | emptyBody => rw [ho] at hg; simp [respGood] at hg
        | rateLimited => rw [ho] at hg; simp [respGood] at hg
        | otherStatus code => rw [ho] at hg; simp [respGood] at hg
        | timeout => rw [ho] at hg; simp [respGood] at hg
        | netError => rw [ho] at hg; simp [respGood] at hg
        | otherExc => rw [ho] at hg; simp [respGood] at hg
      · intro n hn hgood hmin
        cases n with
        | zero => exact ⟨by simp, by simp⟩
        | succ n' =>
          have h0 := hmin 0 (by omega)
          rw [Nat.add_zero] at h0
          rw [h0] at hg
          simp at hg
      · intro hall
        have h0 := hall 0 (by omega)
        rw [Nat.add_zero] at h0
        rw [h0] at hg
        simp at hg
    · have hg' : respGood (oracle a) = false := by simpa using hg
      rw [cgaLoop_succ_not_good keys oracle a r idx hg']
      obtain ⟨ih1, ih2, ih3, ih4, ih5⟩ := ih (a + 1) (idx + 1)
      refine ⟨?_, ?_, ?_, ?_, ?_⟩
      · simp only [List.length_cons]; omega
      · simp only [List.length_cons]; omega
      · intro j hj
        cases j with
        | zero =>
          refine ⟨by simp, by simp, by simp⟩
        | succ j' =>
          simp only [List.length_cons] at hj
          have hj' : j' < (cgaLoop keys oracle (a + 1) r (idx + 1)).2.1.length := by omega
          have h3 := ih3 j' hj'
          simp only [List.get_cons_succ]
          have e1 : idx + 1 + j' = idx + (j' + 1) := by omega
          have e2 : a + 1 + j' = a + (j' + 1) := by omega
          rw [e1, e2] at h3
          exact h3
      · intro n hn hgood hmin
        cases n with
        | zero =>
          rw [Nat.add_zero] at hgood
          rw [hgood] at hg'
          simp at hg'
        | succ n' =>
          have e2 : a + 1 + n' = a + (n' + 1) := by omega
          have h4 := ih4 n' (by omega) (by rw [e2]; exact hgood)
            (fun m hm => by
              have e3 : a + 1 + m = a + (m + 1) := by omega
              rw [e3]; exact hmin (m + 1) (by omega))
          refine ⟨?_, ?_⟩
          · rw [h4.1, e2]
          · simp only [List.length_cons]; omega
      · intro hall
        have h5 := ih5 (fun n hn => by
          have e3 : a + 1 + n = a + (n + 1) := by omega
          rw [e3]; exact hall (n + 1) (by omega))
        refine ⟨h5.1, ?_⟩
        simp only [List.length_cons]; omega

/-- C5: the `call_gemini_api` loop satisfies the claimed behaviour
(`cgaSpec`): at most pool-size attempts with consecutive rotator
credentials, sleep exactly on a rate-limit response, immediate return of
the first success with non-empty text, and the absence signal after all
credentials fail. -/
theorem c5_model_caller (keys : List String) (oracle : Nat → ApiResp) (idx0 : Nat)
    (_hk : keys ≠ []) :
    cgaSpec keys oracle idx0 := by
  have h := cgaLoop_spec keys oracle keys.length 0 idx0
  obtain ⟨h1, h2, h3, h4, h5⟩ := h
  refine ⟨h1, h2, ?_, ?_, ?_⟩
  · intro j hj
    have := h3 j hj
    simpa using this
  · intro n hn hgood hmin
    have := h4 n hn (by simpa using hgood) (fun m hm => by simpa using hmin m hm)
    simpa using this
  · intro hall
    exact h5 (fun n hn => by simpa using hall n hn)

/-- C5, witness: two keys, a rate-limited first attempt and a successful
second attempt. -/
theorem c5_model_caller_witness :
    cgaSpec ["k1", "k2"]
      (fun n => if n = 0 then ApiResp.rateLimited else ApiResp.success "  hello ") 0 :=
  c5_model_caller ["k1", "k2"]
    (fun n => if n = 0 then ApiResp.rateLimited else ApiResp.success "  hello ") 0
    (by decide)

/-! ## Claim C3 -/

theorem genLoop_ok (env : ApiEnv) (ans : String)
    (hstr : ∀ n s, env.api n = some s → ∀ j, safe_json_parse s = some j →
      ∀ v, jGet j "short" = some v → ∃ t, v = Json.str t) :
    ∀ (r n : Nat), ∃ j, genLoop env ans n r = .ok j := by
  intro r
  induction r with
  | zero => intro n; exact ⟨fallback_explanation ans, rfl⟩
  | succ r ih =>
    intro n
    cases ha : env.api n with
    | none => simpa [genLoop, ha] using ih (n + 1)
    | some s =>
      cases hp : safe_json_parse s with
      | none => simpa [genLoop, ha, hp] using ih (n + 1)
      | some pj =>
        by_cases hf : fieldsOk pj = true
        · have hshort : ∃ v, jGet pj "short" = some v := by
            have hall := hf
            unfold fieldsOk at hall
            have hmem : ("short" : String) ∈ requiredFields := by
              simp [requiredFields]
            have hfo := List.all_eq_true.mp hall "short" hmem
            unfold fieldOk at hfo
            cases hj : jGet pj "short" with
            | none => rw [hj] at hfo; simp at hfo
            | some v => exact ⟨v, rfl⟩
          obtain ⟨v, hv⟩ := hshort
          obtain ⟨t, ht⟩ := hstr n s ha pj hp v hv
          subst ht
          obtain ⟨b, hss⟩ : ∃ b, shortStarts pj ans.toUpper = .ok b :=
            ⟨_, by unfold shortStarts; rw [hv]⟩
          cases hb : b with
          | true =>
            rw [hb] at hss
            exact ⟨pj, by simp [genLoop, ha, hp, hf, hss]⟩
          | false =>
            rw [hb] at hss
            simpa [genLoop, ha, hp, hf, hss] using ih (n + 1)
        · simpa [genLoop, ha, hp, hf] using ih (n + 1)

/-- C3, counterexample: a model response whose parsed "short" field is a
JSON number long enough to pass the completeness check makes
`generate_explanation` raise (`AttributeError` on `.strip()`) instead of
returning a record: the generator does not always return an Explanation
Record. -/
theorem c3_explanation_counterexample :
    generate_explanation
        ⟨fun n => if n = 0 then
            some ("\x7b\"short\": 1234567, \"detailed\": \"abcdefg\", \"mathematical_derivation\": \"abcdefg\", \"key_concept\": \"abcdefg\", \"common_mistakes\": \"abcdefg\", \"real_world_application\": \"abcdefg\", \"memory_tip\": \"abcdefg\"\x7d")
          else none⟩
        ("q") [] ("b") = .error () := by
  rfl

/-- C3, amended: whenever every parsed response carries a string (or no)
"short" field — in particular whenever responses fail to parse or the
capability is absent — the Explanation Generator returns a record and
never an absence signal; and when the capability is absent on all three
attempts, the result is exactly the deterministic fallback record, whose
"short" field is the fixed prefix followed by the upper-cased
correct-answer letter and whose seven required fields are all non-empty
strings. -/
theorem c3_explanation_amended (env : ApiEnv) (question_text : String)
    (options : List QOption) (ans : String)
    (hstr : ∀ n s, env.api n = some s → ∀ j, safe_json_parse s = some j →
      ∀ v, jGet j "short" = some v → ∃ t, v = Json.str t) :
    (∃ j, generate_explanation env question_text options ans = .ok j) ∧
    (env.api 0 = none → env.api 1 = none → env.api 2 = none →
      generate_explanation env question_text options ans =
        .ok (fallback_explanation ans) ∧
      jGet (fallback_explanation ans) "short" =
        some (Json.str ("সঠিক উত্তর: " ++ ans.toUpper)) ∧
      (∀ f ∈ requiredFields, ∃ t, jGet (fallback_explanation ans) f =
        some (Json.str t) ∧ t ≠ "")) := by
  constructor
  · exact genLoop_ok env ans hstr 3 0
  · intro h0 h1 h2
    refine ⟨?_, rfl, ?_⟩
    · simp [generate_explanation, genLoop, h0, h1, h2]
    · intro f hf
      have hlen0 : ("" : String).length = 0 := rfl
      fin_cases hf
      · refine ⟨"সঠিক উত্তর: " ++ ans.toUpper, rfl, ?_⟩
        intro heq
        have hlen := congrArg String.length heq
        rw [String.length_append] at hlen
        have h12 : ("সঠিক উত্তর: " : String).length = 12 := rfl
        rw [h12, hlen0] at hlen
        omega
      · exact ⟨_, rfl, by decide⟩
      · exact ⟨_, rfl, by decide⟩
      · exact ⟨_, rfl, by decide⟩
      · exact ⟨_, rfl, by decide⟩
      · exact ⟨_, rfl, by decide⟩
      · exact ⟨_, rfl, by decide⟩

/-- C3 witness: the amended theorem at the concrete absent capability
(`none` on every attempt): the generator returns a record, that record is
the deterministic fallback, and its "short" field is the fixed prefix
followed by the upper-cased answer letter. -/
theorem c3_explanation_witness :
    (∃ j, generate_explanation ⟨fun _ => none⟩ ("Q") [] ("a") = .ok j) ∧
    generate_explanation ⟨fun _ => none⟩ ("Q") [] ("a") = .ok (fallback_explanation "a") ∧
    jGet (fallback_explanation "a") "short" =
      some (Json.str ("সঠিক উত্তর: " ++ ("a").toUpper)) := by
  have h := c3_explanation_amended ⟨fun _ => none⟩ ("Q") [] ("a")
    (fun n s hs => absurd hs (by simp))
  obtain ⟨h1, h2⟩ := h
  have h3 := h2 rfl rfl rfl
  exact ⟨h1, h3.1, h3.2.1⟩

/-! ## Claim C6: auxiliary lemmas -/

theorem pyStripL_sandwich (c d : Char) (mid : List Char)
    (hc : isPyWs c = false) (hd : isPyWs d = false) :
    pyStripL (c :: (mid ++ [d])) = c :: (mid ++ [d]) := by
  unfold pyStripL
  rw [List.dropWhile_cons, if_neg (by simp [hc])]
  rw [show (c :: (mid ++ [d])).reverse = d :: (mid.reverse ++ [c]) by simp]
  rw [List.dropWhile_cons, if_neg (by simp [hd])]
  rw [show (d :: (mid.reverse ++ [c])) = (c :: (mid ++ [d])).reverse by simp]
  rw [List.reverse_reverse]

theorem splitOnLAux_no_sep : ∀ (l : List Char) (acc : List Char) (fuel : Nat),
    (∀ c ∈ l, c ≠ '\n') → l.length ≤ fuel →
    splitOnLAux ['\n'] fuel l acc = [acc.reverse ++ l] := by
  intro l
  induction l with
  | nil => intro acc fuel _ _; cases fuel <;> simp [splitOnLAux]
  | cons c rest ih =>
    intro acc fuel h hf
    cases fuel with
    | zero => simp at hf
    | succ f =>
      have hc : c ≠ '\n' := h c (by simp)
      have hpre : (['\n'] : List Char).isPrefixOf (c :: rest) = false := by
        simp [List.isPrefixOf]
        intro hcc
        exact absurd hcc.symm hc
      rw [splitOnLAux, if_neg (by simp [hpre])]
      rw [ih (c :: acc) f (fun x hx => h x (by simp [hx])) (by simp at hf; omega)]
      simp

theorem splitOnLAux_sep : ∀ (a rest acc : List Char) (fuel : Nat),
    (∀ c ∈ a, c ≠ '\n') → (a ++ '\n' :: rest).length ≤ fuel →
    splitOnLAux ['\n'] fuel (a ++ '\n' :: rest) acc =
      (acc.reverse ++ a) :: splitOnLAux ['\n'] (fuel - (a.length + 1)) rest [] := by
  intro a
  induction a with
  | nil =>
    intro rest acc fuel _ hf
    cases fuel with
    | zero => simp at hf
    | succ f =>
      simp only [List.nil_append]
      rw [splitOnLAux, if_pos (by simp [List.isPrefixOf])]
      simp
  | cons c a' ih =>
    intro rest acc fuel h hf
    cases fuel with
    | zero => simp at hf
    | succ f =>
      have hc : c ≠ '\n' := h c (by simp)
      have hpre : (['\n'] : List Char).isPrefixOf (c :: (a' ++ '\n' :: rest)) = false := by
        simp [List.isPrefixOf]
        intro hcc
        exact absurd hcc.symm hc
      rw [List.cons_append, splitOnLAux, if_neg (by simp [hpre])]
      rw [ih rest (c :: acc) f (fun x hx => h x (by simp [hx])) (by simp at hf ⊢; omega)]
      simp only [List.reverse_cons, List.append_assoc, List.singleton_append,
        List.length_cons]
      have hfa : f - (a'.length + 1) = f + 1 - (a'.length + 1 + 1) := by omega
      rw [hfa]

theorem mem_joinSep (sep : List Char) (c : Char) :
    ∀ L : List (List Char), c ∈ joinSep sep L → c ∈ sep ∨ ∃ x ∈ L, c ∈ x := by
  intro L
  induction L with
  | nil => intro h; simp [joinSep] at h
  | cons x rest ih =>
    cases rest with
    | nil => intro h; rw [joinSep] at h; exact Or.inr ⟨x, by simp, h⟩
    | cons y rest' =>
      intro h
      rw [joinSep] at h
      rcases List.mem_append.mp h with h1 | h2
      · rcases List.mem_append.mp h1 with h3 | h4
        · exact Or.inr ⟨x, by simp, h3⟩
        · exact Or.inl h4
      · rcases ih h2 with h5 | ⟨z, hz, hcz⟩
        · exact Or.inl h5
        · exact Or.inr ⟨z, List.mem_cons_of_mem x hz, hcz⟩

theorem mem_serializeRawL (pairs : List (String × String)) (c : Char)
    (h : c ∈ serializeRawL pairs) :
    c = '{' ∨ c = '}' ∨ c = ',' ∨ c = ' ' ∨ c = ':' ∨ c = '"' ∨
      (∃ kv ∈ pairs, c ∈ kv.1.data ∨ c ∈ kv.2.data) := by
  unfold serializeRawL at h
  rcases List.mem_cons.mp h with h0 | h1
  · exact Or.inl h0
  rcases List.mem_append.mp h1 with h2 | h3
  · rcases mem_joinSep _ c _ h2 with hs | ⟨x, hx, hcx⟩
    · simp only [List.mem_cons, List.mem_singleton, List.not_mem_nil, or_false] at hs
      tauto
    · obtain ⟨kv, hkv, hxe⟩ := List.mem_map.mp hx
      subst hxe
      simp only [rawPairL, rawQuoted, List.cons_append, List.append_assoc,
        List.mem_cons, List.mem_append, List.mem_singleton,
        List.not_mem_nil, or_false] at hcx
      have hq : c = '"' →
          c = '{' ∨ c = '}' ∨ c = ',' ∨ c = ' ' ∨ c = ':' ∨ c = '"' ∨
            (∃ kv2 ∈ pairs, c ∈ kv2.1.data ∨ c ∈ kv2.2.data) :=
        fun hh => Or.inr (Or.inr (Or.inr (Or.inr (Or.inr (Or.inl hh)))))
      have hk : c ∈ kv.1.data ∨ c ∈ kv.2.data →
          c = '{' ∨ c = '}' ∨ c = ',' ∨ c = ' ' ∨ c = ':' ∨ c = '"' ∨
            (∃ kv2 ∈ pairs, c ∈ kv2.1.data ∨ c ∈ kv2.2.data) := by
        intro hh
        exact Or.inr (Or.inr (Or.inr (Or.inr (Or.inr (Or.inr ⟨kv, hkv, hh⟩)))))
      rcases hcx with h | h
      · exact hq h
      · rcases h with h | h | h | h | h | h | h | h
        · exact hk (Or.inl h)
        · exact hq h
        · exact h.elim
        · exact Or.inr (Or.inr (Or.inr (Or.inr (Or.inl h))))
        · exact Or.inr (Or.inr (Or.inr (Or.inl h)))
        · exact hq h
        · exact hk (Or.inr h)
        · exact hq h
  · simp only [List.mem_singleton] at h3
    exact Or.inr (Or.inl h3)

theorem fenceFilter_three (S : List Char) (hS : pyStripL S = S)
    (hhead : ∃ t, S = '{' :: t) :
    fenceFilter [("```json").data, S, ("```").data] false = [S] := by
  obtain ⟨t, ht⟩ := hhead
  rw [fenceFilter, if_pos (by decide)]
  rw [fenceFilter]
  rw [hS, ht]
  rw [if_neg (by simp [List.isPrefixOf, btick]), if_pos (by simp)]
  rw [fenceFilter, if_pos (by decide)]
  rw [fenceFilter]

theorem stripFencesL_of_fenced (S : List Char)
    (hnl : ∀ c ∈ S, c ≠ '\n')
    (hshape : ∃ mid, S = '{' :: (mid ++ ['}'])) :
    stripFencesL (("```json\n").data ++ S ++ '\n' :: ("```").data) = S := by
  obtain ⟨mid, hm⟩ := hshape
  have hstrip : pyStripL S = S := by
    rw [hm]; exact pyStripL_sandwich '{' '}' mid (by decide) (by decide)
  unfold stripFencesL
  have hsplit : splitOnL ['\n'] (("```json\n").data ++ S ++ '\n' :: ("```").data) =
      [("```json").data, S, ("```").data] := by
    unfold splitOnL
    have he : ("```json\n").data ++ S ++ '\n' :: ("```").data =
        ("```json").data ++ '\n' :: (S ++ '\n' :: ("```").data) := by
      simp
    rw [he]
    rw [splitOnLAux_sep ("```json").data (S ++ '\n' :: ("```").data) []
      _ (by decide) (by simp)]
    rw [splitOnLAux_sep S ("```").data [] _ hnl (by simp)]
    rw [splitOnLAux_no_sep ("```").data [] _ (by decide) (by simp)]
    simp
  rw [hsplit]
  rw [fenceFilter_three S hstrip ⟨mid ++ ['}'], hm⟩]
  rw [joinSep]
  exact hstrip

theorem braceSpanL_shape (mid : List Char) :
    braceSpanL ('{' :: (mid ++ ['}'])) = some ('{' :: (mid ++ ['}'])) := by
  have h1 : List.dropWhile (fun c => decide (c ≠ '{')) ('{' :: (mid ++ ['}'])) =
      '{' :: (mid ++ ['}']) := List.dropWhile_cons_of_neg (by decide)
  have h2 : (List.dropWhile (fun c => decide (c ≠ '}'))
      ('{' :: (mid ++ ['}'])).reverse).reverse = '{' :: (mid ++ ['}']) := by
    rw [show ('{' :: (mid ++ ['}'])).reverse = '}' :: (mid.reverse ++ ['{']) from by simp]
    rw [List.dropWhile_cons_of_neg (by decide)]
    simp
  unfold braceSpanL
  simp only [h1, h2]
  simp

theorem doubleBS_append : ∀ (a b : List Char),
    doubleBS (a ++ b) = doubleBS a ++ doubleBS b := by
  intro a b
  induction a with
  | nil => simp [doubleBS]
  | cons c rest ih =>
    rw [List.cons_append, doubleBS, doubleBS]
    by_cases hc : c = '\\'
    · rw [if_pos hc, if_pos hc, ih]; simp
    · rw [if_neg hc, if_neg hc, ih]; simp

theorem doubleBS_plain : ∀ (a : List Char), (∀ c ∈ a, c ≠ '\\') →
    doubleBS a = a := by
  intro a
  induction a with
  | nil => intro _; rfl
  | cons c rest ih =>
    intro h
    rw [doubleBS, if_neg (h c (by simp))]
    rw [ih (fun x hx => h x (by simp [hx]))]

theorem mem_doubleBS : ∀ (l : List Char) (c : Char), c ∈ doubleBS l → c ∈ l := by
  intro l
  induction l with
  | nil => intro c h; simp [doubleBS] at h
  | cons d rest ih =>
    intro c h
    rw [doubleBS] at h
    by_cases hd : d = '\\'
    · rw [if_pos hd] at h
      rcases List.mem_cons.mp h with h1 | h2
      · subst h1; simp [hd]
      · rcases List.mem_cons.mp h2 with h3 | h4
        · subst h3; simp [hd]
        · exact List.mem_cons_of_mem d (ih c h4)
    · rw [if_neg hd] at h
      rcases List.mem_cons.mp h with h1 | h2
      · simp [h1]
      · exact List.mem_cons_of_mem d (ih c h2)

theorem lonelyBS_plain : ∀ (a : List Char), (∀ c ∈ a, c ≠ '\\') →
    lonelyBS a = true := by
  intro a
  induction a with
  | nil => intro _; rfl
  | cons c rest ih =>
    intro h
    cases rest with
    | nil => simp [lonelyBS, h c (by simp)]
    | cons e rest2 =>
      rw [lonelyBS, if_neg (h c (by simp))]
      exact ih (fun x hx => h x (by simp [hx]))

theorem lonelyBS_append : ∀ (a : List Char),
    lonelyBS a = true → ∀ b, lonelyBS b = true → lonelyBS (a ++ b) = true := by
  intro a
  induction a with
  | nil => intro _ b hlb; simpa
  | cons c a' ih =>
    intro hla b hlb
    cases a' with
    | nil =>
      have hc : c ≠ '\\' := by simpa [lonelyBS] using hla
      cases b with
      | nil => simpa [lonelyBS] using hc
      | cons b0 brest =>
        rw [List.singleton_append, lonelyBS, if_neg hc]
        exact hlb
    | cons e a'' =>
      rw [List.cons_append, List.cons_append, lonelyBS]
      rw [lonelyBS] at hla
      by_cases hc : c = '\\'
      · rw [if_pos hc]
        rw [if_pos hc] at hla
        simp only [Bool.and_eq_true] at hla ⊢
        obtain ⟨⟨h1a, h2a⟩, h3a⟩ := hla
        refine ⟨⟨h1a, h2a⟩, ?_⟩
        have := ih h3a b hlb
        simpa using this
      · rw [if_neg hc]
        rw [if_neg hc] at hla
        have := ih hla b hlb
        simpa using this

theorem lonelyBS_no_bb : ∀ (l : List Char),
    lonelyBS l = true → containsSub ['\\', '\\'] l = false := by
  intro l
  induction l with
  | nil => intro _; rfl
  | cons c rest ih =>
    intro hlo
    rw [containsSub]
    cases rest with
    | nil =>
      have hpre : (['\\', '\\'] : List Char).isPrefixOf [c] = false := by
        simp [List.isPrefixOf]
      rw [hpre]
      rfl
    | cons e rest2 =>
      rw [lonelyBS] at hlo
      by_cases hc : c = '\\'
      · rw [if_pos hc] at hlo
        simp only [Bool.and_eq_true] at hlo
        have he : e ≠ '\\' := by
          intro hee
          rw [hee] at hlo
          have : (escChar '\\').isNone = true := hlo.1.1
          simp [escChar] at this
        have hpre : (['\\', '\\'] : List Char).isPrefixOf (c :: e :: rest2) = false := by
          simp [List.isPrefixOf]
          intro _
          exact fun hee => absurd hee.symm he
        rw [hpre]
        rw [ih hlo.2]
        rfl
      · rw [if_neg hc] at hlo
        have hpre : (['\\', '\\'] : List Char).isPrefixOf (c :: e :: rest2) = false := by
          simp [List.isPrefixOf]
          intro hcc
          exact absurd hcc.symm hc
        rw [hpre]
        rw [ih hlo]
        rfl

theorem replaceAllAux_not_contains (pat rep : List Char) :
    ∀ (l : List Char) (fuel : Nat), containsSub pat l = false →
      replaceAllAux pat rep fuel l = l := by
  intro l
  induction l with
  | nil => intro fuel _; cases fuel <;> rfl
  | cons c rest ih =>
    intro fuel h
    rw [containsSub] at h
    simp only [Bool.or_eq_false_iff] at h
    cases fuel with
    | zero => rfl
    | succ f =>
      rw [replaceAllAux, if_neg (by simp [h.1])]
      rw [ih f h.2]

theorem containsSub_head_notin (p0 : Char) (ps : List Char) :
    ∀ (l : List Char), (∀ c ∈ l, c ≠ p0) →
      containsSub (p0 :: ps) l = false := by
  intro l
  induction l with
  | nil => intro _; rfl
  | cons c rest ih =>
    intro h
    rw [containsSub]
    have hpre : (p0 :: ps).isPrefixOf (c :: rest) = false := by
      simp [List.isPrefixOf]
      intro hp
      exact absurd hp.symm (h c (by simp))
    rw [hpre, ih (fun x hx => h x (by simp [hx]))]
    rfl

theorem replaceAllAux_doubles : ∀ (l : List Char) (fuel : Nat), l.length ≤ fuel →
    replaceAllAux ['\\'] ['\\', '\\'] fuel l = doubleBS l := by
  intro l
  induction l with
  | nil => intro fuel _; cases fuel <;> rfl
  | cons c rest ih =>
    intro fuel hf
    cases fuel with
    | zero => simp at hf
    | succ f =>
      rw [replaceAllAux, doubleBS]
      by_cases hc : c = '\\'
      · subst hc
        rw [if_pos (by simp [List.isPrefixOf])]
        simp only [List.length_singleton, Nat.sub_self, List.drop_zero, if_pos rfl]
        rw [ih f (by simp at hf; omega)]
        rfl
      · rw [if_neg (by simp [List.isPrefixOf]; intro hcc; exact absurd hcc.symm hc)]
        rw [if_neg hc]
        rw [ih f (by simp at hf; omega)]

theorem reescapeL_eq_doubleBS (S : List Char)
    (h1 : lonelyBS S = true) (h2 : ∀ c ∈ S, c ≠ Char.ofNat 0) :
    reescapeL S = doubleBS S := by
  unfold reescapeL replaceAll
  rw [replaceAllAux_not_contains _ _ S _ (lonelyBS_no_bb S h1)]
  rw [replaceAllAux_doubles S _ (Nat.le_refl _)]
  have hnul : ∀ c ∈ doubleBS S, c ≠ Char.ofNat 0 := by
    intro c hc
    by_cases hb : c = '\\'
    · subst hb; decide
    · exact h2 c (mem_doubleBS S c hc)
  have hmk : containsSub bsMarker (doubleBS S) = false := by
    have : bsMarker = Char.ofNat 0 :: (("DOUBLE_BACKSLASH").data ++ [Char.ofNat 0]) := rfl
    rw [this]
    exact containsSub_head_notin _ _ _ hnul
  rw [replaceAllAux_not_contains _ _ _ _ hmk]

theorem lonelyBS_joinSep (sep : List Char) (hsep : lonelyBS sep = true) :
    ∀ L : List (List Char), (∀ x ∈ L, lonelyBS x = true) →
      lonelyBS (joinSep sep L) = true := by
  intro L
  induction L with
  | nil => intro _; rfl
  | cons x rest ih =>
    cases rest with
    | nil => intro h; rw [joinSep]; exact h x (by simp)
    | cons y rest2 =>
      intro h
      rw [joinSep, List.append_assoc]
      exact lonelyBS_append x (h x (by simp)) _
        (lonelyBS_append sep hsep _ (ih (fun z hz => h z (List.mem_cons_of_mem x hz))))

theorem rawPairL_decomp (kv : String × String) :
    rawPairL kv = ('"' :: kv.1.data ++ ['"', ':', ' ', '"']) ++ (kv.2.data ++ ['"']) := by
  unfold rawPairL rawQuoted
  simp

theorem escPairL_decomp (kv : String × String) :
    escPairL kv = ('"' :: kv.1.data ++ ['"', ':', ' ', '"']) ++ (doubleBS kv.2.data ++ ['"']) := by
  unfold escPairL rawQuoted
  simp

theorem pair_prefix_plain (kv : String × String)
    (hk : ∀ c ∈ kv.1.data, c ≠ '\\') :
    ∀ c ∈ ('"' :: kv.1.data ++ ['"', ':', ' ', '"']), c ≠ '\\' := by
  intro c hc
  rcases List.mem_cons.mp hc with rfl | h
  · decide
  · rcases List.mem_append.mp h with h1 | h2
    · exact hk c h1
    · simp only [List.mem_cons, List.not_mem_nil, or_false] at h2
      rcases h2 with rfl | rfl | rfl | rfl <;> decide

theorem okKeyChar_no_bs (c : Char) (h : okKeyChar c = true) : c ≠ '\\' := by
  intro he
  rw [he] at h
  exact absurd h (by decide)

theorem lonelyBS_serializeRawL (pairs : List (String × String))
    (hkey : ∀ kv ∈ pairs, ∀ c ∈ kv.1.data, okKeyChar c = true)
    (hlone : ∀ kv ∈ pairs, lonelyBS kv.2.data = true) :
    lonelyBS (serializeRawL pairs) = true := by
  unfold serializeRawL
  rw [show ('{' :: (joinSep [',', ' '] (pairs.map rawPairL) ++ ['}'])) =
      ['{'] ++ (joinSep [',', ' '] (pairs.map rawPairL) ++ ['}']) from rfl]
  apply lonelyBS_append _ (by decide)
  apply lonelyBS_append
  · apply lonelyBS_joinSep _ (by decide)
    intro x hx
    obtain ⟨kv, hkv, rfl⟩ := List.mem_map.mp hx
    rw [rawPairL_decomp]
    apply lonelyBS_append
    · exact lonelyBS_plain _ (pair_prefix_plain kv
        (fun c hc => okKeyChar_no_bs c (hkey kv hkv c hc)))
    · exact lonelyBS_append _ (hlone kv hkv) _ (by decide)
  · decide

theorem serializeRawL_no_nl (pairs : List (String × String))
    (hkey : ∀ kv ∈ pairs, ∀ c ∈ kv.1.data, okKeyChar c = true)
    (hval : ∀ kv ∈ pairs, ∀ c ∈ kv.2.data, okValChar c = true) :
    ∀ c ∈ serializeRawL pairs, c ≠ '\n' := by
  intro c hc
  rcases mem_serializeRawL pairs c hc with h | h | h | h | h | h | ⟨kv, hkv, h⟩
  · subst h; decide
  · subst h; decide
  · subst h; decide
  · subst h; decide
  · subst h; decide
  · subst h; decide
  · rcases h with h | h
    · intro he
      have hb := hkey kv hkv c h
      rw [he] at hb
      exact absurd hb (by decide)
    · intro he
      have hb := hval kv hkv c h
      rw [he] at hb
      exact absurd hb (by decide)

theorem serializeRawL_no_nul (pairs : List (String × String))
    (hkey : ∀ kv ∈ pairs, ∀ c ∈ kv.1.data, okKeyChar c = true)
    (hval : ∀ kv ∈ pairs, ∀ c ∈ kv.2.data, okValChar c = true) :
    ∀ c ∈ serializeRawL pairs, c ≠ Char.ofNat 0 := by
  intro c hc
  rcases mem_serializeRawL pairs c hc with h | h | h | h | h | h | ⟨kv, hkv, h⟩
  · subst h; decide
  · subst h; decide
  · subst h; decide
  · subst h; decide
  · subst h; decide
  · subst h; decide
  · rcases h with h | h
    · intro he
      have hb := hkey kv hkv c h
      rw [he] at hb
      exact absurd hb (by decide)
    · intro he
      have hb := hval kv hkv c h
      rw [he] at hb
      exact absurd hb (by decide)

theorem doubleBS_joinSep (sep : List Char) (hsep : ∀ c ∈ sep, c ≠ '\\') :
    ∀ L : List (List Char), doubleBS (joinSep sep L) = joinSep sep (L.map doubleBS) := by
  intro L
  induction L with
  | nil => rfl
  | cons x rest ih =>
    cases rest with
    | nil => rw [joinSep, List.map_cons, List.map_nil, joinSep]
    | cons y rest2 =>
      rw [joinSep, doubleBS_append, doubleBS_append, doubleBS_plain sep hsep, ih]
      simp [joinSep]

theorem doubleBS_serializeRawL (pairs : List (String × String))
    (hkey : ∀ kv ∈ pairs, ∀ c ∈ kv.1.data, okKeyChar c = true) :
    doubleBS (serializeRawL pairs) = serializeEscL pairs := by
  unfold serializeRawL serializeEscL
  rw [doubleBS, if_neg (by decide)]
  rw [doubleBS_append, doubleBS_plain ['}'] (by decide)]
  rw [doubleBS_joinSep _ (by decide)]
  rw [List.map_map]
  have hmap : List.map (doubleBS ∘ rawPairL) pairs = List.map escPairL pairs :=
    List.map_congr_left (fun kv hkv => by
      simp only [Function.comp_apply]
      rw [rawPairL_decomp, escPairL_decomp]
      rw [doubleBS_append, doubleBS_append]
      rw [doubleBS_plain ('"' :: kv.1.data) (by
        intro c hc
        rcases List.mem_cons.mp hc with rfl | h
        · decide
        · exact okKeyChar_no_bs c (hkey kv hkv c h))]
      rw [show doubleBS ['"', ':', ' ', '"'] = ['"', ':', ' ', '"'] from by decide]
      rw [doubleBS_append, doubleBS_plain ['"'] (by decide)])
  rw [hmap]

theorem okValChar_ne_quote (c : Char) (h : okValChar c = true) : c ≠ '"' := by
  intro he
  rw [he] at h
  exact absurd h (by decide)

theorem okValChar_not_ctrl (c : Char) (h : okValChar c = true) : ¬(c.toNat < 0x20) := by
  unfold okValChar at h
  simp only [Bool.and_eq_true, decide_eq_true_eq] at h
  omega

theorem okKeyChar_okValChar (c : Char) (h : okKeyChar c = true) : okValChar c = true := by
  unfold okKeyChar at h
  unfold okValChar
  simp only [Bool.and_eq_true, decide_eq_true_eq] at h ⊢
  exact ⟨h.1.1, h.2⟩

theorem parseStringAux_escaped : ∀ (v rest : List Char) (fuel : Nat),
    (∀ c ∈ v, okValChar c = true) → (doubleBS v ++ '"' :: rest).length ≤ fuel →
    parseStringAux fuel (doubleBS v ++ '"' :: rest) = some (v, rest) := by
  intro v
  induction v with
  | nil =>
    intro rest fuel _ hf
    cases fuel with
    | zero => simp [doubleBS] at hf
    | succ f =>
      rw [show doubleBS [] ++ '"' :: rest = '"' :: rest from rfl]
      simp [parseStringAux]
  | cons c v' ih =>
    intro rest fuel hok hf
    by_cases hc : c = '\\'
    · subst hc
      have hdb : doubleBS ('\\' :: v') ++ '"' :: rest =
          '\\' :: '\\' :: (doubleBS v' ++ '"' :: rest) := by
        rw [doubleBS]; simp
      rw [hdb] at hf ⊢
      cases fuel with
      | zero => simp at hf
      | succ f =>
        have hrec := ih rest f (fun x hx => hok x (List.mem_cons_of_mem _ hx))
          (by simp at hf ⊢; omega)
        simp [parseStringAux, escChar, hrec]
    · have hval := hok c (by simp)
      have hcq : c ≠ '"' := okValChar_ne_quote c hval
      have hctrl : ¬(c.toNat < 0x20) := okValChar_not_ctrl c hval
      have hdb : doubleBS (c :: v') ++ '"' :: rest =
          c :: (doubleBS v' ++ '"' :: rest) := by
        rw [doubleBS, if_neg hc]; simp
      rw [hdb] at hf ⊢
      cases fuel with
      | zero => simp at hf
      | succ f =>
        have hrec := ih rest f (fun x hx => hok x (List.mem_cons_of_mem _ hx))
          (by simp at hf ⊢; omega)
        simp [parseStringAux, hcq, hc, hctrl, hrec]

theorem parseString_key (k rest : List Char)
    (hok : ∀ c ∈ k, okKeyChar c = true) :
    parseString (k ++ '"' :: rest) = some (k, rest) := by
  unfold parseString
  have hplain : doubleBS k = k :=
    doubleBS_plain k (fun c hc => okKeyChar_no_bs c (hok c hc))
  rw [show k ++ '"' :: rest = doubleBS k ++ '"' :: rest from by rw [hplain]]
  exact parseStringAux_escaped k rest _
    (fun c hc => okKeyChar_okValChar c (hok c hc))
    (by rw [hplain])

theorem parseStringAux_raw_fail : ∀ (v : List Char) (fuel : Nat) (tail : List Char),
    (∀ c ∈ v, okValChar c = true) → lonelyBS v = true →
    containsSub ['\\'] v = true →
    parseStringAux fuel (v ++ tail) = none := by
  intro v
  induction v with
  | nil => intro fuel tail _ _ hcs; simp [containsSub] at hcs
  | cons c v' ih =>
    intro fuel tail hok hlone hcs
    cases fuel with
    | zero => rfl
    | succ f =>
      by_cases hc : c = '\\'
      · subst hc
        cases v' with
        | nil => simp [lonelyBS] at hlone
        | cons e v'' =>
          rw [lonelyBS, if_pos rfl] at hlone
          simp only [Bool.and_eq_true, decide_eq_true_eq] at hlone
          have hesc : escChar e = none := Option.isNone_iff_eq_none.mp hlone.1.1
          simp [parseStringAux, hlone.1.2, hesc]
      · have hcs' : containsSub ['\\'] v' = true := by
          rw [containsSub] at hcs
          simp only [Bool.or_eq_true] at hcs
          rcases hcs with h1 | h2
          · exfalso
            simp [List.isPrefixOf] at h1
            exact hc h1.symm
          · exact h2
        have hlone' : lonelyBS v' = true := by
          cases v' with
          | nil => rfl
          | cons e v'' => rw [lonelyBS, if_neg hc] at hlone; exact hlone
        have hval := hok c (by simp)
        have hrec := ih f tail (fun x hx => hok x (List.mem_cons_of_mem _ hx)) hlone' hcs'
        simp [parseStringAux, okValChar_ne_quote c hval, hc,
          okValChar_not_ctrl c hval, hrec]

theorem parseValue_str_val (f : Nat) (v : String) (rest : List Char)
    (hok : ∀ c ∈ v.data, okValChar c = true) :
    parseValue (f + 1) (' ' :: '"' :: (doubleBS v.data ++ '"' :: rest)) =
      some (Json.str v, rest) := by
  have hskip : skipWs (' ' :: '"' :: (doubleBS v.data ++ '"' :: rest)) =
      '"' :: (doubleBS v.data ++ '"' :: rest) := by
    unfold skipWs
    rw [List.dropWhile_cons_of_pos (by decide), List.dropWhile_cons_of_neg (by decide)]
  have hps : parseString (doubleBS v.data ++ '"' :: rest) = some (v.data, rest) := by
    unfold parseString
    exact parseStringAux_escaped v.data rest _ hok (Nat.le_refl _)
  simp [parseValue, hskip, hps]

theorem skipWs_not_ws (c : Char) (l : List Char) (h : isJsonWs c = false) :
    skipWs (c :: l) = c :: l := by
  unfold skipWs
  rw [List.dropWhile_cons_of_neg (by simp [h])]

theorem skipWs_joinSep_esc (ps : List (String × String)) (hps : ps ≠ []) (tail : List Char) :
    skipWs (joinSep [',', ' '] (ps.map escPairL) ++ tail) =
      joinSep [',', ' '] (ps.map escPairL) ++ tail := by
  cases ps with
  | nil => exact absurd rfl hps
  | cons kv ps' =>
    have hkv : escPairL kv =
        '"' :: (kv.1.data ++ ['"', ':', ' ', '"'] ++ (doubleBS kv.2.data ++ ['"'])) := by
      rw [escPairL_decomp]; simp
    cases ps' with
    | nil =>
      rw [List.map_cons, List.map_nil]
      show skipWs (escPairL kv ++ tail) = escPairL kv ++ tail
      rw [hkv]
      simp only [List.cons_append]
      exact skipWs_not_ws _ _ (by decide)
    | cons kv2 ps'' =>
      rw [List.map_cons, List.map_cons]
      have hj : joinSep [',', ' '] (escPairL kv :: escPairL kv2 :: ps''.map escPairL) =
          escPairL kv ++ [',', ' '] ++ joinSep [',', ' '] (escPairL kv2 :: ps''.map escPairL) := rfl
      rw [hj, hkv]
      simp only [List.cons_append, List.append_assoc]
      exact skipWs_not_ws _ _ (by decide)

theorem membersLoop_esc (f : Nat) :
    ∀ (ps : List (String × String)) (cnt : Nat) (acc : List (String × Json)),
    ps ≠ [] →
    (∀ kv ∈ ps, ∀ c ∈ kv.1.data, okKeyChar c = true) →
    (∀ kv ∈ ps, ∀ c ∈ kv.2.data, okValChar c = true) →
    ps.length ≤ cnt →
    membersLoop (parseValue (f + 1)) cnt
        (joinSep [',', ' '] (ps.map escPairL) ++ ['}']) acc =
      some (Json.obj (acc ++ ps.map (fun kv => (kv.1, Json.str kv.2))), []) := by
  intro ps
  induction ps with
  | nil => intro cnt acc h _ _ _; exact absurd rfl h
  | cons kv ps' ih =>
    intro cnt acc _ hkey hval hcnt
    cases cnt with
    | zero => simp at hcnt
    | succ c =>
      have hkeyok : ∀ ch ∈ kv.1.data, okKeyChar ch = true := hkey kv (by simp)
      have hvalok : ∀ ch ∈ kv.2.data, okValChar ch = true := hval kv (by simp)
      cases ps' with
      | nil =>
        have htext : joinSep [',', ' '] ([kv].map escPairL) ++ ['}'] =
            '"' :: (kv.1.data ++ '"' ::
              (':' :: ' ' :: '"' :: (doubleBS kv.2.data ++ '"' :: ['}']))) := by
          rw [List.map_cons, List.map_nil]
          show escPairL kv ++ ['}'] = _
          rw [escPairL_decomp]
          simp
        have hps : parseString (kv.1.data ++ '"' ::
            (':' :: ' ' :: '"' :: (doubleBS kv.2.data ++ '"' :: ['}']))) =
            some (kv.1.data, ':' :: ' ' :: '"' :: (doubleBS kv.2.data ++ '"' :: ['}'])) :=
          parseString_key _ _ hkeyok
        have h1 : skipWs (':' :: ' ' :: '"' :: (doubleBS kv.2.data ++ '"' :: ['}'])) =
            ':' :: ' ' :: '"' :: (doubleBS kv.2.data ++ '"' :: ['}']) :=
          skipWs_not_ws _ _ (by decide)
        have hpv : parseValue (f + 1) (' ' :: '"' :: (doubleBS kv.2.data ++ '"' :: ['}'])) =
            some (Json.str kv.2, ['}']) := parseValue_str_val f kv.2 ['}'] hvalok
        have h2 : skipWs ['}'] = ['}'] := skipWs_not_ws _ _ (by decide)
        rw [htext]
        simp [membersLoop, hps, h1, hpv, h2]
      | cons kv2 ps'' =>
        have hrec := ih c (acc ++ [(kv.1, Json.str kv.2)]) (by simp)
          (fun p hp => hkey p (by simp [hp]))
          (fun p hp => hval p (by simp [hp]))
          (by simp at hcnt ⊢; omega)
        have htext : joinSep [',', ' '] ((kv :: kv2 :: ps'').map escPairL) ++ ['}'] =
            '"' :: (kv.1.data ++ '"' ::
              (':' :: ' ' :: '"' :: (doubleBS kv.2.data ++ '"' ::
                (',' :: ' ' ::
                  (joinSep [',', ' '] ((kv2 :: ps'').map escPairL) ++ ['}']))))) := by
          rw [List.map_cons, List.map_cons]
          have hj : joinSep [',', ' '] (escPairL kv :: escPairL kv2 :: ps''.map escPairL) =
              escPairL kv ++ [',', ' '] ++
                joinSep [',', ' '] (escPairL kv2 :: ps''.map escPairL) := rfl
          rw [hj, escPairL_decomp]
          simp
        have hps : parseString (kv.1.data ++ '"' ::
            (':' :: ' ' :: '"' :: (doubleBS kv.2.data ++ '"' ::
              (',' :: ' ' :: (joinSep [',', ' '] ((kv2 :: ps'').map escPairL) ++ ['}']))))) =
            some (kv.1.data, ':' :: ' ' :: '"' :: (doubleBS kv.2.data ++ '"' ::
              (',' :: ' ' :: (joinSep [',', ' '] ((kv2 :: ps'').map escPairL) ++ ['}'])))) :=
          parseString_key _ _ hkeyok
        have h1 : skipWs (':' :: ' ' :: '"' :: (doubleBS kv.2.data ++ '"' ::
            (',' :: ' ' :: (joinSep [',', ' '] ((kv2 :: ps'').map escPairL) ++ ['}'])))) =
            ':' :: ' ' :: '"' :: (doubleBS kv.2.data ++ '"' ::
            (',' :: ' ' :: (joinSep [',', ' '] ((kv2 :: ps'').map escPairL) ++ ['}']))) :=
          skipWs_not_ws _ _ (by decide)
        have hpv : parseValue (f + 1) (' ' :: '"' :: (doubleBS kv.2.data ++ '"' ::
            (',' :: ' ' :: (joinSep [',', ' '] ((kv2 :: ps'').map escPairL) ++ ['}'])))) =
            some (Json.str kv.2,
              ',' :: ' ' :: (joinSep [',', ' '] ((kv2 :: ps'').map escPairL) ++ ['}'])) :=
          parseValue_str_val f kv.2 _ hvalok
        have h2 : skipWs (',' :: ' ' ::
            (joinSep [',', ' '] ((kv2 :: ps'').map escPairL) ++ ['}'])) =
            ',' :: ' ' :: (joinSep [',', ' '] ((kv2 :: ps'').map escPairL) ++ ['}']) :=
          skipWs_not_ws _ _ (by decide)
        have h3 : skipWs (' ' ::
            (joinSep [',', ' '] ((kv2 :: ps'').map escPairL) ++ ['}'])) =
            joinSep [',', ' '] ((kv2 :: ps'').map escPairL) ++ ['}'] := by
          unfold skipWs
          rw [List.dropWhile_cons_of_pos (by decide)]
          have := skipWs_joinSep_esc (kv2 :: ps'') (by simp) ['}']
          unfold skipWs at this
          exact this
        rw [htext]
        simp only [membersLoop, hps, h1, hpv, h2, h3]
        conv_rhs =>
          rw [show (List.map (fun kv => (kv.1, Json.str kv.2)) (kv :: kv2 :: ps'')) =
              (kv.1, Json.str kv.2) ::
                List.map (fun kv => (kv.1, Json.str kv.2)) (kv2 :: ps'') from rfl,
            List.append_cons]
        exact hrec

theorem joinSep_esc_cons (ps : List (String × String)) (hps : ps ≠ []) (tail : List Char) :
    ∃ t, joinSep [',', ' '] (ps.map escPairL) ++ tail = '"' :: t := by
  cases ps with
  | nil => exact absurd rfl hps
  | cons kv ps' =>
    have hkv : escPairL kv =
        '"' :: (kv.1.data ++ ['"', ':', ' ', '"'] ++ (doubleBS kv.2.data ++ ['"'])) := by
      rw [escPairL_decomp]; simp
    cases ps' with
    | nil =>
      refine ⟨kv.1.data ++ ['"', ':', ' ', '"'] ++ (doubleBS kv.2.data ++ ['"']) ++ tail, ?_⟩
      rw [List.map_cons, List.map_nil,
        show joinSep [',', ' '] [escPairL kv] = escPairL kv from rfl, hkv]
      simp
    | cons kv2 ps'' =>
      refine ⟨kv.1.data ++ ['"', ':', ' ', '"'] ++ (doubleBS kv.2.data ++ ['"']) ++
        [',', ' '] ++ joinSep [',', ' '] ((kv2 :: ps'').map escPairL) ++ tail, ?_⟩
      rw [List.map_cons, List.map_cons,
        show joinSep [',', ' '] (escPairL kv :: escPairL kv2 :: ps''.map escPairL) =
          escPairL kv ++ [',', ' '] ++
            joinSep [',', ' '] (escPairL kv2 :: ps''.map escPairL) from rfl,
        hkv]
      simp

theorem le_length_joinSep_esc : ∀ ps : List (String × String),
    ps.length ≤ (joinSep [',', ' '] (ps.map escPairL)).length := by
  intro ps
  induction ps with
  | nil => simp [joinSep]
  | cons kv ps' ih =>
    cases ps' with
    | nil =>
      rw [List.map_cons, List.map_nil,
        show joinSep [',', ' '] [escPairL kv] = escPairL kv from rfl, escPairL_decomp]
      simp
    | cons kv2 ps'' =>
      rw [List.map_cons, List.map_cons,
        show joinSep [',', ' '] (escPairL kv :: escPairL kv2 :: ps''.map escPairL) =
          escPairL kv ++ [',', ' '] ++
            joinSep [',', ' '] (escPairL kv2 :: ps''.map escPairL) from rfl]
      simp only [List.map_cons, List.length_cons] at ih
      simp only [List.length_append, List.length_cons]
      omega

theorem jsonLoadsL_serializeEscL (pairs : List (String × String)) (hne : pairs ≠ [])
    (hkey : ∀ kv ∈ pairs, ∀ c ∈ kv.1.data, okKeyChar c = true)
    (hval : ∀ kv ∈ pairs, ∀ c ∈ kv.2.data, okValChar c = true) :
    jsonLoadsL (serializeEscL pairs) =
      some (Json.obj (pairs.map (fun kv => (kv.1, Json.str kv.2)))) := by
  obtain ⟨t, ht⟩ := joinSep_esc_cons pairs hne ['}']
  have hjlen : (joinSep [',', ' '] (pairs.map escPairL)).length = t.length := by
    have := congrArg List.length ht
    simp at this
    omega
  have hlen : pairs.length ≤ t.length + 1 + 1 := by
    have h1 := le_length_joinSep_esc pairs
    omega
  have hser : serializeEscL pairs = '{' :: '"' :: t := by
    unfold serializeEscL; rw [ht]
  have hskip1 : skipWs ('{' :: '"' :: t) = '{' :: '"' :: t := skipWs_not_ws _ _ (by decide)
  have hskip2 : skipWs ('"' :: t) = '"' :: t := skipWs_not_ws _ _ (by decide)
  have hml := membersLoop_esc (t.length + 1) pairs (t.length + 1 + 1) [] hne hkey hval hlen
  rw [ht] at hml
  simp only [List.nil_append] at hml
  have hpv : parseValue (t.length + 1 + 1 + 1) ('{' :: '"' :: t) =
      some (Json.obj (pairs.map (fun kv => (kv.1, Json.str kv.2))), []) := by
    have hred : parseValue (t.length + 1 + 1 + 1) ('{' :: '"' :: t) =
        membersLoop (parseValue (t.length + 1 + 1)) (('"' :: t).length + 1) ('"' :: t) [] := rfl
    rw [hred]
    simp only [List.length_cons]
    exact hml
  unfold jsonLoadsL
  rw [hser]
  simp only [List.length_cons]
  rw [hpv]
  simp [skipWs]

theorem serializeRawL_decomp (kv : String × String) (rest : List (String × String)) :
    ∃ R, serializeRawL (kv :: rest) =
      '{' :: '"' :: (kv.1.data ++ '"' :: (':' :: ' ' :: '"' :: (kv.2.data ++ '"' :: R))) := by
  unfold serializeRawL
  cases rest with
  | nil =>
    refine ⟨['}'], ?_⟩
    rw [List.map_cons, List.map_nil,
      show joinSep [',', ' '] [rawPairL kv] = rawPairL kv from rfl, rawPairL_decomp]
    simp
  | cons kv2 rest' =>
    refine ⟨',' :: ' ' :: (joinSep [',', ' '] ((kv2 :: rest').map rawPairL) ++ ['}']), ?_⟩
    rw [List.map_cons, List.map_cons,
      show joinSep [',', ' '] (rawPairL kv :: rawPairL kv2 :: rest'.map rawPairL) =
        rawPairL kv ++ [',', ' '] ++
          joinSep [',', ' '] (rawPairL kv2 :: rest'.map rawPairL) from rfl,
      rawPairL_decomp]
    simp

theorem jsonLoadsL_serializeRawL_fail (kv : String × String) (rest : List (String × String))
    (hk : ∀ c ∈ kv.1.data, okKeyChar c = true)
    (hv : ∀ c ∈ kv.2.data, okValChar c = true)
    (hl : lonelyBS kv.2.data = true)
    (hb : containsSub ['\\'] kv.2.data = true) :
    jsonLoadsL (serializeRawL (kv :: rest)) = none := by
  obtain ⟨R, hR⟩ := serializeRawL_decomp kv rest
  have hps : parseString (kv.1.data ++ '"' :: (':' :: ' ' :: '"' :: (kv.2.data ++ '"' :: R))) =
      some (kv.1.data, ':' :: ' ' :: '"' :: (kv.2.data ++ '"' :: R)) := parseString_key _ _ hk
  have h1 : skipWs (':' :: ' ' :: '"' :: (kv.2.data ++ '"' :: R)) =
      ':' :: ' ' :: '"' :: (kv.2.data ++ '"' :: R) := skipWs_not_ws _ _ (by decide)
  have hfail : ∀ F, parseValue F (' ' :: '"' :: (kv.2.data ++ '"' :: R)) = none := by
    intro F
    cases F with
    | zero => rfl
    | succ f =>
      have hskip : skipWs (' ' :: '"' :: (kv.2.data ++ '"' :: R)) =
          '"' :: (kv.2.data ++ '"' :: R) := by
        unfold skipWs
        rw [List.dropWhile_cons_of_pos (by decide), List.dropWhile_cons_of_neg (by decide)]
      have hpsf : parseString (kv.2.data ++ '"' :: R) = none := by
        unfold parseString
        exact parseStringAux_raw_fail kv.2.data _ _ hv hl hb
      simp [parseValue, hskip, hpsf]
  have hml : ∀ F, membersLoop (parseValue F)
      (('"' :: (kv.1.data ++ '"' :: (':' :: ' ' :: '"' :: (kv.2.data ++ '"' :: R)))).length + 1)
      ('"' :: (kv.1.data ++ '"' :: (':' :: ' ' :: '"' :: (kv.2.data ++ '"' :: R)))) [] = none := by
    intro F
    simp [membersLoop, hps, h1, hfail F]
  have hpv : parseValue
      (('{' :: '"' :: (kv.1.data ++ '"' ::
        (':' :: ' ' :: '"' :: (kv.2.data ++ '"' :: R)))).length + 1)
      ('{' :: '"' :: (kv.1.data ++ '"' ::
        (':' :: ' ' :: '"' :: (kv.2.data ++ '"' :: R)))) = none := by
    have hred : parseValue
        (('{' :: '"' :: (kv.1.data ++ '"' ::
          (':' :: ' ' :: '"' :: (kv.2.data ++ '"' :: R)))).length + 1)
        ('{' :: '"' :: (kv.1.data ++ '"' ::
          (':' :: ' ' :: '"' :: (kv.2.data ++ '"' :: R)))) =
        membersLoop
          (parseValue (('{' :: '"' :: (kv.1.data ++ '"' ::
            (':' :: ' ' :: '"' :: (kv.2.data ++ '"' :: R)))).length))
          (('"' :: (kv.1.data ++ '"' :: (':' :: ' ' :: '"' :: (kv.2.data ++ '"' :: R)))).length + 1)
          ('"' :: (kv.1.data ++ '"' :: (':' :: ' ' :: '"' :: (kv.2.data ++ '"' :: R)))) [] := rfl
    rw [hred]
    exact hml _
  rw [hR]
  unfold jsonLoadsL
  rw [hpv]

theorem safe_json_parse_fenced_raw (pairs : List (String × String)) (hne : pairs ≠ [])
    (hkey : ∀ kv ∈ pairs, ∀ c ∈ kv.1.data, okKeyChar c = true)
    (hval : ∀ kv ∈ pairs, ∀ c ∈ kv.2.data, okValChar c = true)
    (hbs : ∀ kv ∈ pairs, containsSub ['\\'] kv.2.data = true)
    (hlone : ∀ kv ∈ pairs, lonelyBS kv.2.data = true) :
    safe_json_parse (fencedInput pairs) =
      some (Json.obj (pairs.map (fun kv => (kv.1, Json.str kv.2)))) := by
  obtain ⟨kv, rest, hpr⟩ : ∃ kv rest, pairs = kv :: rest := by
    cases pairs with
    | nil => exact absurd rfl hne
    | cons a b => exact ⟨a, b, rfl⟩
  have hdata : (fencedInput pairs).data =
      ("```json\n").data ++ serializeRawL pairs ++ '\n' :: ("```").data := rfl
  have hform : ("```json\n").data ++ serializeRawL pairs ++ '\n' :: ("```").data =
      '`' :: (('`' :: '`' :: 'j' :: 's' :: 'o' :: 'n' :: '\n' ::
        (serializeRawL pairs ++ ['\n', '`', '`'])) ++ ['`']) := by
    rw [show ("```json\n").data = ['`', '`', '`', 'j', 's', 'o', 'n', '\n'] from rfl,
      show ("```").data = ['`', '`', '`'] from rfl]
    simp
  have hstrip : pyStripL (("```json\n").data ++ serializeRawL pairs ++ '\n' :: ("```").data) =
      ("```json\n").data ++ serializeRawL pairs ++ '\n' :: ("```").data := by
    rw [hform]
    exact pyStripL_sandwich _ _ _ (by decide) (by decide)
  have hcl_ne : ("```json\n").data ++ serializeRawL pairs ++ '\n' :: ("```").data ≠ [] := by
    rw [hform]; simp
  have hb3 : btick = '`' := rfl
  have hpre : [btick, btick, btick].isPrefixOf
      (("```json\n").data ++ serializeRawL pairs ++ '\n' :: ("```").data) = true := by
    rw [hb3, show ("```json\n").data = ['`', '`', '`', 'j', 's', 'o', 'n', '\n'] from rfl]
    simp [List.isPrefixOf]
  have hfence : stripFencesL
      (("```json\n").data ++ serializeRawL pairs ++ '\n' :: ("```").data) =
      serializeRawL pairs :=
    stripFencesL_of_fenced _ (serializeRawL_no_nl pairs hkey hval) ⟨_, rfl⟩
  have hspan : braceSpanL (serializeRawL pairs) = some (serializeRawL pairs) := by
    unfold serializeRawL
    exact braceSpanL_shape _
  have hfail : jsonLoadsL (serializeRawL pairs) = none := by
    rw [hpr]
    exact jsonLoadsL_serializeRawL_fail kv rest
      (hkey kv (by rw [hpr]; simp)) (hval kv (by rw [hpr]; simp))
      (hlone kv (by rw [hpr]; simp)) (hbs kv (by rw [hpr]; simp))
  have hre : reescapeL (serializeRawL pairs) = serializeEscL pairs := by
    rw [reescapeL_eq_doubleBS _ (lonelyBS_serializeRawL pairs hkey hlone)
      (serializeRawL_no_nul pairs hkey hval)]
    exact doubleBS_serializeRawL pairs hkey
  have hok : jsonLoadsL (serializeEscL pairs) =
      some (Json.obj (pairs.map (fun kv => (kv.1, Json.str kv.2)))) :=
    jsonLoadsL_serializeEscL pairs hne hkey hval
  unfold safe_json_parse
  rw [hdata, hstrip]
  rw [if_neg hcl_ne, hpre]
  simp only [if_true, hfence, hspan, hfail, hre, hok]

/-- C6 counterexample: on the spec's own example, a fenced object whose value
holds the raw LaTeX `\frac`, the pipeline's DIRECT parse already succeeds,
because `\f` is a valid JSON escape (form feed). The re-escape repair never
runs, and the parsed value is a form-feed character followed by `rac`, not
the backslash-preserving `\frac` the claim promises. -/
theorem c6_backslash_repair_counterexample :
    jStrField (safe_json_parse ("```json\n\x7b\"a\": \"\\frac\x7b1\x7d\x7b2\x7d\"\x7d\n```"))
        ("a") = some ("\x0crac\x7b1\x7d\x7b2\x7d") ∧
    jStrField (safe_json_parse ("```json\n\x7b\"a\": \"\\frac\x7b1\x7d\x7b2\x7d\"\x7d\n```"))
        ("a") ≠ some ("\\frac\x7b1\x7d\x7b2\x7d") := by
  constructor
  · decide
  · decide

/-- C6 (amended): the repair round-trip holds exactly when every backslash in
the values is "lonely" — not followed by a valid JSON escape character
(`" \ / b f n r t u`) — so that the direct parse fails and the re-escape
step runs. For a fenced single object with printable quote-free keys (no
backslash) and printable quote-free values whose every backslash is lonely
and which each contain at least one backslash, `safe_json_parse` returns
the object with every value preserved verbatim (backslashes intact). -/
theorem c6_backslash_repair_amended (pairs : List (String × String)) (hne : pairs ≠ [])
    (hkey : ∀ kv ∈ pairs, ∀ c ∈ kv.1.data, okKeyChar c = true)
    (hval : ∀ kv ∈ pairs, ∀ c ∈ kv.2.data, okValChar c = true)
    (hbs : ∀ kv ∈ pairs, containsSub ['\\'] kv.2.data = true)
    (hlone : ∀ kv ∈ pairs, lonelyBS kv.2.data = true) :
    safe_json_parse (fencedInput pairs) =
      some (Json.obj (pairs.map (fun kv => (kv.1, Json.str kv.2)))) :=
  safe_json_parse_fenced_raw pairs hne hkey hval hbs hlone

/-- C6 witness: the amended theorem applied to the concrete fenced input
`` ```json\n{"a": "\sqrt{2}"}\n``` `` (where `\s` is NOT a valid JSON
escape, so the backslash is lonely): the pipeline repairs it and returns
the object with the backslash preserved. -/
theorem c6_backslash_repair_witness :
    safe_json_parse (fencedInput [("a", "\\sqrt\x7b2\x7d")]) =
      some (Json.obj [("a", Json.str "\\sqrt\x7b2\x7d")]) := by
  have h := c6_backslash_repair_amended [("a", "\\sqrt\x7b2\x7d")] (by decide) (by decide)
    (by decide) (by decide) (by decide)
  simpa using h
